import Mathlib

/-!
Verification of the recipe-extraction core of the food_run repository.

The definitions below are a shallow embedding of src/server/recipeParser.ts
(and the entry point parseRecipeFromUrl of the scraper module).  JavaScript
strings are modelled as List Char, JS numbers as exact rationals, fallible
JS operations as Option/Except, and each regex of the source is translated
into an explicit scanning function with the same matching semantics.
-/

namespace FoodRun

/-- JS whitespace for the regex class \s and String.prototype.trim, restricted
to the characters that can actually occur here: ASCII whitespace plus the
no-break space. -/
def isJsWs (c : Char) : Bool :=
  c = ' ' || c = '\t' || c = '\n' || c = '\r' ||
  c = Char.ofNat 11 || c = Char.ofNat 12 || c = Char.ofNat 160

/-- Model of str.replace(/\s+/g, " "): every maximal whitespace run becomes one
space.  The Bool flag records whether the previous character was whitespace. -/
def collapseWsAux : Bool → List Char → List Char
  | _, [] => []
  | inWs, c :: rest =>
    if isJsWs c then
      (if inWs then [] else [' ']) ++ collapseWsAux true rest
    else c :: collapseWsAux false rest

/-- str.replace(/\s+/g, " "). -/
def collapseWs (l : List Char) : List Char := collapseWsAux false l

/-- String.prototype.trim. -/
def trimJs (l : List Char) : List Char :=
  ((l.dropWhile isJsWs).reverse.dropWhile isJsWs).reverse

/-- Fueled worker for global literal replacement; every recursive call drops
at least one input character, so fuel bounded below by the input length never
runs out, and the recursion is structural so that it computes in the kernel. -/
def replaceSubF (pat repl : List Char) : ℕ → List Char → List Char
  | 0, s => s
  | f + 1, s =>
    match s with
    | [] => []
    | c :: rest =>
      if pat.isPrefixOf (c :: rest) ∧ 1 ≤ pat.length then
        repl ++ replaceSubF pat repl f (rest.drop (pat.length - 1))
      else c :: replaceSubF pat repl f rest

/-- str.replace(pat, repl) with a global literal pattern: left-to-right,
non-overlapping replacement of every occurrence of pat. -/
def replaceSub (pat repl : List Char) (s : List Char) : List Char :=
  replaceSubF pat repl s.length s

/-- decodeHtmlEntities from recipeParser.ts: the chained literal replaces,
then whitespace collapsing, then trim, in source order. -/
def decodeHtmlEntities (l : List Char) : List Char :=
  trimJs (collapseWs
    (replaceSub "&nbsp;".data " ".data
      (replaceSub "&#39;".data "\x27".data
        (replaceSub "&quot;".data "\"".data
          (replaceSub "&gt;".data ">".data
            (replaceSub "&lt;".data "<".data
              (replaceSub "&amp;".data "&".data l)))))))

/-- Model of String.prototype.toLowerCase on the ASCII range. -/
def toLowerJs (l : List Char) : List Char := l.map Char.toLower

/-- str.includes(pat). -/
def containsSub (pat : List Char) : List Char → Bool
  | [] => pat.isEmpty
  | c :: rest => pat.isPrefixOf (c :: rest) || containsSub pat rest

/-- Case-insensitive prefix test (for regexes carrying the i flag). -/
def startsWithCI (pat s : List Char) : Bool :=
  (pat.map Char.toLower).isPrefixOf (s.map Char.toLower)

/-- Case-insensitive containment test. -/
def containsSubCI (pat s : List Char) : Bool :=
  containsSub (pat.map Char.toLower) (s.map Char.toLower)

/-- str.split(" "): split at every single space character, keeping empty
pieces, with [""] for the empty string. -/
def splitOnSpace : List Char → List (List Char)
  | [] => [[]]
  | c :: rest =>
    if c = ' ' then [] :: splitOnSpace rest
    else
      match splitOnSpace rest with
      | [] => [[c]]
      | piece :: more => (c :: piece) :: more

/-- Numeric value of a list of decimal digit characters (the value parseInt
assigns to a digit run; empty list gives 0). -/
def natVal (l : List Char) : ℕ :=
  l.foldl (fun acc c => 10 * acc + (c.toNat - 48)) 0

/-- First maximal run of decimal digits in the string: the capture of the
regex /(\d+)/. -/
def firstDigitRun : List Char → Option (List Char)
  | [] => none
  | c :: rest =>
    if c.isDigit then some ((c :: rest).takeWhile Char.isDigit)
    else firstDigitRun rest

/-- Characters the stripped amount token may contain besides the slash. -/
def isNumTokChar (c : Char) : Bool := c.isDigit || c = '.'

/-- Model of JS Number(tok) for a token made of digits, dots and slashes (the
only characters the tokenizer leaves in it): NaN — i.e. none — unless the
token is empty (value 0) or a plain decimal numeral with at least one digit
and at most one dot.  In particular a fraction such as 1/2 is NaN. -/
def jsNumberOfToken (tok : List Char) : Option ℚ :=
  if tok = [] then some 0
  else if tok.all isNumTokChar ∧ tok.count '.' ≤ 1 ∧ tok.any Char.isDigit then
    let ip := tok.takeWhile (fun c => c ≠ '.')
    let fp := (tok.dropWhile (fun c => c ≠ '.')).drop 1
    some (mkRat (natVal ip * 10 ^ fp.length + natVal fp) (10 ^ fp.length))
  else none

/-- The Ingredient shape shared by client and server. -/
structure Ingredient where
  name : String
  amount : Option ℚ
  unit : Option String
  notes : Option String
deriving DecidableEq, Repr

/-- The normalization parseIngredientLine applies to its input:
decodeHtmlEntities(raw).replace(/\s+/g, " ").trim(). -/
def normalizeLine (raw : List Char) : List Char :=
  trimJs (collapseWs (decodeHtmlEntities raw))

/-- parts[0].replace(/[^\d./]/g, ""). -/
def stripNonAmountChars (tok : List Char) : List Char :=
  tok.filter (fun c => c.isDigit || c = '.' || c = '/')

/-- parts.join(" "). -/
def joinSpace : List (List Char) → List Char
  | [] => []
  | [p] => p
  | p :: q :: rest => p ++ ' ' :: joinSpace (q :: rest)

/-- parseIngredientLine from recipeParser.ts. -/
def parseIngredientLine (raw : String) : Ingredient :=
  if normalizeLine raw.data = [] then ⟨"", none, none, none⟩
  else
    match splitOnSpace (normalizeLine raw.data) with
    | [] => ⟨⟨normalizeLine raw.data⟩, none, none, none⟩
    | p0 :: rest =>
      match jsNumberOfToken (stripNonAmountChars p0),
          (stripNonAmountChars p0).any Char.isDigit with
      | some v, true =>
        match rest with
        | p1 :: p2 :: more =>
          ⟨⟨joinSpace (p2 :: more)⟩, some v, some ⟨p1⟩, none⟩
        | _ => ⟨⟨joinSpace rest⟩, some v, none, none⟩
      | _, _ => ⟨⟨normalizeLine raw.data⟩, none, none, none⟩

/-- Digit character for a digit value. -/
def digitChar (d : ℕ) : Char := Char.ofNat (48 + d)

/-- Fueled worker producing the decimal digits of n, least significant
first; fuel at least n always suffices. -/
def natDigitsF : ℕ → ℕ → List Char
  | 0, _ => []
  | f + 1, n => if n = 0 then [] else digitChar (n % 10) :: natDigitsF f (n / 10)

/-- Decimal digit characters of a natural number, most significant first. -/
def natToDigits (n : ℕ) : List Char :=
  if n = 0 then ['0'] else (natDigitsF n n).reverse

/-- The number of fraction digits a denominator requires: the least k with
d dividing 10 ^ k (searched up to d, which always suffices for denominators
that divide a power of ten). -/
def decExp (d : ℕ) : ℕ :=
  (((List.range (d + 1)).find? fun k => 10 ^ k % d == 0).getD 0)

/-- Digits left-padded with zeros to hold at least one integer digit in
front of k fraction digits. -/
def padDigits (k : ℕ) (ds : List Char) : List Char :=
  List.replicate (max ds.length (k + 1) - ds.length) '0' ++ ds

/-- Digit characters with a dot inserted before the last k of them. -/
def insertDot (k : ℕ) (ds : List Char) : List Char :=
  (padDigits k ds).take ((padDigits k ds).length - k) ++
    '.' :: (padDigits k ds).drop ((padDigits k ds).length - k)

/-- Modelled platform builtin: JS number-to-string for the nonnegative exact
decimals the tokenizer produces - the plain digits for an integer, else the
integer digits, a dot, and the minimal fraction digits. -/
def decStr (q : ℚ) : List Char :=
  if decExp q.den = 0 then natToDigits q.num.toNat
  else insertDot (decExp q.den) (natToDigits (q.num.toNat * 10 ^ decExp q.den / q.den))

/-- The reconstructed text of a record: amount, then unit, then name, the
present fields joined with single spaces. -/
def reconstructLine (r : Ingredient) : List Char :=
  joinSpace ((r.amount.map decStr).toList ++ (r.unit.map String.data).toList ++ [r.name.data])

/-! ## JSON values and a model of JSON.parse -/

/-- The opening curly brace character. -/
def lbrace : Char := Char.ofNat 123

/-- The closing curly brace character. -/
def rbrace : Char := Char.ofNat 125

/-- Parsed JSON values.  Objects keep their fields in property order; a later
duplicate key overwrites the value at the first occurrence, as in JS. -/
inductive Json where
  | null
  | bool (b : Bool)
  | num (q : ℚ)
  | str (s : String)
  | arr (items : List Json)
  | obj (fields : List (String × Json))

/-- Insignificant whitespace accepted by JSON.parse. -/
def isJsonWs (c : Char) : Bool := c = ' ' || c = '\t' || c = '\n' || c = '\r'

/-- Skip insignificant JSON whitespace. -/
def skipWs (s : List Char) : List Char := s.dropWhile isJsonWs

/-- Value of one hexadecimal digit. -/
def hexVal (c : Char) : Option ℕ :=
  if c.isDigit then some (c.toNat - 48)
  else if 'a' ≤ c ∧ c ≤ 'f' then some (c.toNat - 87)
  else if 'A' ≤ c ∧ c ≤ 'F' then some (c.toNat - 55)
  else none

/-- Single-character JSON string escapes. -/
def escChar (c : Char) : Option Char :=
  if c = '\"' then some '\"'
  else if c = '\\' then some '\\'
  else if c = '/' then some '/'
  else if c = 'b' then some (Char.ofNat 8)
  else if c = 'f' then some (Char.ofNat 12)
  else if c = 'n' then some '\n'
  else if c = 'r' then some '\r'
  else if c = 't' then some '\t'
  else none

/-- Parse a JSON string body (the input starts right after the opening quote);
returns the decoded characters and the rest after the closing quote.  Raw
control characters and unknown escapes are rejected, as by JSON.parse. -/
def parseStrBody : List Char → Option (List Char × List Char)
  | [] => none
  | c :: rest =>
    if c = '\"' then some ([], rest)
    else if c = '\\' then
      match rest with
      | [] => none
      | e :: rest2 =>
        if e = 'u' then
          match rest2 with
          | h1 :: h2 :: h3 :: h4 :: rest3 =>
            match hexVal h1, hexVal h2, hexVal h3, hexVal h4 with
            | some a, some b, some c2, some d =>
              (parseStrBody rest3).map
                (fun p => (Char.ofNat (4096 * a + 256 * b + 16 * c2 + d) :: p.1, p.2))
            | _, _, _, _ => none
          | _ => none
        else
          match escChar e with
          | some ec => (parseStrBody rest2).map (fun p => (ec :: p.1, p.2))
          | none => none
    else if c.toNat < 32 then none
    else (parseStrBody rest).map (fun p => (c :: p.1, p.2))

/-- Parse the optional fraction part of a JSON number, returning its digit
characters. -/
def parseFracPart : List Char → Option (List Char × List Char)
  | '.' :: r =>
    let ds := r.takeWhile Char.isDigit
    if ds = [] then none
    else some (ds, r.dropWhile Char.isDigit)
  | s => some ([], s)

/-- Sign handling at the start of the exponent digits. -/
def expSign : List Char → Bool × List Char
  | '+' :: rr => (false, rr)
  | '-' :: rr => (true, rr)
  | rr => (false, rr)

/-- Parse the optional exponent part of a JSON number. -/
def parseExpPart : List Char → Option (ℤ × List Char)
  | [] => some (0, [])
  | c :: r =>
    if c = 'e' ∨ c = 'E' then
      let ds := (expSign r).2.takeWhile Char.isDigit
      if ds = [] then none
      else
        some ((if (expSign r).1 then -(natVal ds : ℤ) else (natVal ds : ℤ)),
          (expSign r).2.dropWhile Char.isDigit)
    else some (0, c :: r)

/-- The exact rational value of a JSON number with sign, integer part,
fraction digits and exponent (the source computes the corresponding float;
the model keeps the exact value). -/
def jsonNumValue (neg : Bool) (ip : ℕ) (fp : List Char) (e : ℤ) : ℚ :=
  let base : ℤ := ((ip * 10 ^ fp.length + natVal fp : ℕ) : ℤ)
  let signed : ℤ := if neg then -base else base
  if 0 ≤ e then mkRat (signed * 10 ^ e.toNat) (10 ^ fp.length)
  else mkRat signed (10 ^ fp.length * 10 ^ (-e).toNat)

/-- The optional leading minus of a JSON number. -/
def numSign : List Char → Bool × List Char
  | '-' :: r => (true, r)
  | r => (false, r)

/-- The part of JSON number parsing after the optional minus sign. -/
def parseNumCore (neg : Bool) : List Char → Option (ℚ × List Char)
  | [] => none
  | c :: rest =>
    let ipAndRest : Option (ℕ × List Char) :=
      if c = '0' then some (0, rest)
      else if c.isDigit then
        some (natVal ((c :: rest).takeWhile Char.isDigit),
          (c :: rest).dropWhile Char.isDigit)
      else none
    match ipAndRest with
    | none => none
    | some (ip, r1) =>
      match parseFracPart r1 with
      | none => none
      | some (f, r2) =>
        match parseExpPart r2 with
        | none => none
        | some (e, r3) => some (jsonNumValue neg ip f e, r3)

/-- Parse a JSON number (grammar of JSON.parse: optional minus, integer part
without leading zeros, optional fraction, optional exponent). -/
def parseNum (s : List Char) : Option (ℚ × List Char) :=
  parseNumCore (numSign s).1 (numSign s).2

/-- Insert a parsed object member before the already-parsed later members,
with the JS duplicate-key rule: the first occurrence keeps its position but a
later value wins. -/
def insertField (k : String) (v : Json) (flds : List (String × Json)) :
    List (String × Json) :=
  match flds.lookup k with
  | some v2 => (k, v2) :: flds.filter (fun kv => kv.1 ≠ k)
  | none => (k, v) :: flds

mutual

/-- Parse one JSON value; fuel bounds the recursion and every recursive call
of the three parsers decrements it, keeping the recursion structural. -/
def parseVal : ℕ → List Char → Option (Json × List Char)
  | 0, _ => none
  | f + 1, s =>
    match skipWs s with
    | [] => none
    | c :: r =>
      if c = lbrace then
        match skipWs r with
        | d :: r2 =>
          if d = rbrace then some (Json.obj [], r2)
          else (parseFields f r).map (fun p => (Json.obj p.1, p.2))
        | [] => none
      else if c = '[' then
        match skipWs r with
        | d :: r2 =>
          if d = ']' then some (Json.arr [], r2)
          else (parseItems f r).map (fun p => (Json.arr p.1, p.2))
        | [] => none
      else if c = '\"' then (parseStrBody r).map (fun p => (Json.str ⟨p.1⟩, p.2))
      else if ("true".data).isPrefixOf (c :: r) then some (Json.bool true, (c :: r).drop 4)
      else if ("false".data).isPrefixOf (c :: r) then some (Json.bool false, (c :: r).drop 5)
      else if ("null".data).isPrefixOf (c :: r) then some (Json.null, (c :: r).drop 4)
      else (parseNum (c :: r)).map (fun p => (Json.num p.1, p.2))

/-- Parse one object member and the members after it (input starts right
after the opening brace or after a separating comma). -/
def parseFields : ℕ → List Char → Option (List (String × Json) × List Char)
  | 0, _ => none
  | f + 1, s =>
    match skipWs s with
    | c0 :: r =>
      if c0 = '\"' then
        match parseStrBody r with
        | none => none
        | some (k, r1) =>
          match skipWs r1 with
          | c1 :: r2 =>
            if c1 = ':' then
              match parseVal f r2 with
              | none => none
              | some (v, r3) =>
                match skipWs r3 with
                | c :: r4 =>
                  if c = rbrace then some ([(⟨k⟩, v)], r4)
                  else if c = ',' then
                    (parseFields f r4).map (fun p => (insertField ⟨k⟩ v p.1, p.2))
                  else none
                | [] => none
            else none
          | [] => none
      else none
    | [] => none

/-- Parse one array element and the elements after it (input starts right
after the opening bracket or after a separating comma). -/
def parseItems : ℕ → List Char → Option (List Json × List Char)
  | 0, _ => none
  | f + 1, s =>
    match parseVal f s with
    | none => none
    | some (v, r1) =>
      match skipWs r1 with
      | c :: r2 =>
        if c = ']' then some ([v], r2)
        else if c = ',' then (parseItems f r2).map (fun p => (v :: p.1, p.2))
        else none
      | [] => none

end

/-- Model of JSON.parse: a single value with only whitespace around it;
none models the SyntaxError of a failed strict parse.  The fuel is generous:
every unit of nesting consumes input characters. -/
def parseJson (s : List Char) : Option Json :=
  match parseVal (2 * s.length + 4) s with
  | some (v, rest) => if skipWs rest = [] then some v else none
  | none => none

/-! ## Structured-data extraction (parseFromJsonLd) -/

/-- Fueled worker for the brace-adjacency repair rewrite. -/
def replaceBraceAdjF : ℕ → List Char → List Char
  | 0, s => s
  | f + 1, s =>
    match s with
    | [] => []
    | c :: rest =>
      if c = rbrace then
        match rest.dropWhile isJsWs with
        | d :: r2 =>
          if d = lbrace then rbrace :: ',' :: lbrace :: replaceBraceAdjF f r2
          else c :: replaceBraceAdjF f rest
        | [] => c :: replaceBraceAdjF f rest
      else c :: replaceBraceAdjF f rest

/-- The repair rewrite rawJson.replace(/\x7d\s*\x7b/g, "\x7d,\x7b"): insert a
comma between a closing brace and the next opening brace separated only by
whitespace. -/
def replaceBraceAdj (s : List Char) : List Char :=
  replaceBraceAdjF s.length s

/-- The lenient second parse attempt: wrap in brackets after the brace-comma
repair. -/
def jsRepair (raw : List Char) : List Char :=
  '[' :: replaceBraceAdj raw ++ [']']

/-- Index of the first case-insensitive occurrence of pat. -/
def firstIndexOfCI (pat : List Char) : List Char → Option ℕ
  | [] => if pat = [] then some 0 else none
  | c :: rest =>
    if startsWithCI pat (c :: rest) then some 0
    else (firstIndexOfCI pat rest).map (· + 1)

/-- Does this suffix of the script tag attributes start with
type=["]application/ld+json["] (either quote character, case-insensitive),
as required inside the block-scanning regex? -/
def ldJsonAt (s : List Char) : Bool :=
  startsWithCI "type=".data s &&
  (match s.drop 5 with
   | q :: r =>
     (q = '\"' || q = Char.ofNat 39) &&
     startsWithCI "application/ld+json".data r &&
     (match r.drop 19 with
      | q2 :: _ => q2 = '\"' || q2 = Char.ofNat 39
      | [] => false)
   | [] => false)

/-- Does p hold of some suffix of the list? -/
def anySuffix (p : List Char → Bool) : List Char → Bool
  | [] => p []
  | c :: rest => p (c :: rest) || anySuffix p rest

/-- The attribute run of a script tag (everything between the tag name and the
closing angle bracket) contains the ld+json type marker at offset at least one,
mirroring the [^>]+type=["]...["] part of the block regex. -/
def attrsHasLdJson : List Char → Bool
  | [] => false
  | _ :: rest => anySuffix ldJsonAt rest

/-- Try to match the script-block regex at the head of the input.  On success
returns the lazily-captured block content together with the number of matched
characters minus one (so that callers can recurse on a structurally smaller
suffix). -/
def matchScriptAt (s : List Char) : Option (List Char × ℕ) :=
  if startsWithCI "<script".data s then
    let afterTag := s.drop 7
    let attrs := afterTag.takeWhile (fun c => c ≠ '>')
    match afterTag.dropWhile (fun c => c ≠ '>') with
    | _ :: body =>
      if attrsHasLdJson attrs then
        (firstIndexOfCI "</script>".data body).map
          (fun k => (body.take k, 6 + attrs.length + 1 + k + 9))
      else none
    | [] => none
  else none

/-- Fueled worker for the script-block exec loop. -/
def findScriptBlocksF : ℕ → List Char → List (List Char)
  | 0, _ => []
  | f + 1, s =>
    match s with
    | [] => []
    | c :: rest =>
      match matchScriptAt (c :: rest) with
      | some (content, n) => content :: findScriptBlocksF f (rest.drop n)
      | none => findScriptBlocksF f rest

/-- All contents of script blocks whose type attribute marks them as ld+json,
in document order, as found by the global exec loop of parseFromJsonLd. -/
def findScriptBlocks (s : List Char) : List (List Char) :=
  findScriptBlocksF s.length s

/-- Field lookup on a JSON value: some for object fields, none otherwise
(the undefined of a JS property access). -/
def jsGet (j : Json) (k : String) : Option Json :=
  match j with
  | Json.obj fields => fields.lookup k
  | _ => none

/-- The first key of the list whose value is present and non-null: the JS
nullish-coalescing chain over the given property names. -/
def jsCoalesce (j : Json) : List String → Option Json
  | [] => none
  | k :: rest =>
    match jsGet j k with
    | some Json.null => jsCoalesce j rest
    | some v => some v
    | none => jsCoalesce j rest

/-- Does the node declare @type Recipe (directly or in a type list)? -/
def typeIsRecipe (j : Json) : Bool :=
  match jsGet j "@type" with
  | some (Json.str s) => toLowerJs s.data == "recipe".data
  | some (Json.arr l) =>
    l.any (fun e =>
      match e with
      | Json.str s => toLowerJs s.data == "recipe".data
      | _ => false)
  | _ => false

mutual

/-- findRecipeNodes from recipeParser.ts: depth-first search pushing each
matching object before walking its values. -/
def findRecipeNodes : Json → List Json
  | Json.arr items => findRecipeNodesList items
  | Json.obj fields =>
    (if typeIsRecipe (Json.obj fields) then [Json.obj fields] else []) ++
      findRecipeNodesFields fields
  | _ => []

/-- findRecipeNodes over the items of an array. -/
def findRecipeNodesList : List Json → List Json
  | [] => []
  | j :: rest => findRecipeNodes j ++ findRecipeNodesList rest

/-- findRecipeNodes over the values of an object. -/
def findRecipeNodesFields : List (String × Json) → List Json
  | [] => []
  | kv :: rest => findRecipeNodes kv.2 ++ findRecipeNodesFields rest

end

/-- The candidate roots one script block contributes: the strict parse, else
the repaired parse, else nothing. -/
def blockCandidates (block : List Char) : List Json :=
  let rawJson := trimJs block
  if rawJson = [] then []
  else
    match parseJson rawJson with
    | some v => [v]
    | none =>
      match parseJson (jsRepair rawJson) with
      | some v => [v]
      | none => []

/-- All recipe nodes of the document in discovery order (allRecipeNodes in the
source). -/
def allRecipeNodesOf (html : List Char) : List Json :=
  (findScriptBlocks html).flatMap (fun b => (blockCandidates b).flatMap findRecipeNodes)

/-- extractServings from recipeParser.ts, applied to a JSON yield value. -/
def extractServings (v : Json) : Option ℚ :=
  match v with
  | Json.num q => some q
  | Json.str s =>
    match firstDigitRun s.data with
    | some run => some ((natVal run : ℚ))
    | none => none
  | _ => none

/-- The shape parseRecipeHtml returns to the client. -/
structure ParsedRecipe where
  title : String
  servings : Option ℚ
  ingredients : List Ingredient
deriving DecidableEq, Repr

/-- The title source value: (name ?? headline ?? alternateName). -/
def titleCandidate (node : Json) : Option Json :=
  jsCoalesce node ["name", "headline", "alternateName"]

/-- Title extraction from the primary recipe node.  A present non-string title
value reaches decodeHtmlEntities, whose .replace call then throws a TypeError;
that is modelled by the error case. -/
def titleOf (node : Json) : Except String String :=
  match titleCandidate node with
  | none => Except.ok ""
  | some (Json.str s) => Except.ok ⟨decodeHtmlEntities s.data⟩
  | some _ => Except.error "TypeError: raw.replace is not a function"

/-- Servings from (recipeYield ?? recipeServings ?? yield ?? null). -/
def servingsOf (node : Json) : Option ℚ :=
  match jsCoalesce node ["recipeYield", "recipeServings", "yield"] with
  | some v => extractServings v
  | none => none

/-- The raw ingredients value: (recipeIngredient ?? ingredients ?? []). -/
def rawIngredientsOf (node : Json) : Json :=
  match jsCoalesce node ["recipeIngredient", "ingredients"] with
  | some v => v
  | none => Json.arr []

/-- The text one entry of the raw ingredients array contributes: strings are
kept as they are; objects contribute a non-empty text or name field; anything
else is skipped. -/
def ingredientEntryText (item : Json) : Option String :=
  match item with
  | Json.str s => some s
  | Json.null => none
  | Json.bool _ => none
  | Json.num _ => none
  | j =>
    let text : String :=
      match jsGet j "text" with
      | some (Json.str t) => t
      | _ =>
        match jsGet j "name" with
        | some (Json.str t) => t
        | _ => ""
    if text = "" then none else some text

/-- The ingredient line strings of a recipe node, in order. -/
def ingredientStringsOf (node : Json) : List String :=
  match rawIngredientsOf node with
  | Json.arr items => items.filterMap ingredientEntryText
  | _ => []

/-- parseFromJsonLd from recipeParser.ts.  ok none models the null return (no
recipe node found); the error case models the TypeError a non-string title
value triggers inside decodeHtmlEntities. -/
def parseFromJsonLd (html : List Char) : Except String (Option ParsedRecipe) :=
  match allRecipeNodesOf html with
  | [] => Except.ok none
  | primary :: _ =>
    match titleOf primary with
    | Except.error e => Except.error e
    | Except.ok t =>
      Except.ok (some ⟨t, servingsOf primary,
        (ingredientStringsOf primary).map (fun s => parseIngredientLine s)⟩)

/-! ## Heuristic section extraction (parseFromIngredientsSection) -/

/-- Fueled worker for tag stripping. -/
def stripTagsF : ℕ → List Char → List Char
  | 0, s => s
  | f + 1, s =>
    match s with
    | [] => []
    | c :: rest =>
      if c = '<' then
        match rest.dropWhile (fun d => d ≠ '>') with
        | '>' :: r2 =>
          if rest.head? = some '>' then c :: stripTagsF f rest
          else ' ' :: stripTagsF f r2
        | _ => c :: stripTagsF f rest
      else c :: stripTagsF f rest

/-- str.replace(/<[^>]+>/g, " "): every tag-shaped span becomes one space. -/
def stripTags (s : List Char) : List Char :=
  stripTagsF s.length s

/-- Try to match the heading regex <h([1-6])[^>]*>(lazy)</h\1> at the head of
the input; returns the raw inner capture and the matched length minus one. -/
def matchHeadingAt (s : List Char) : Option (List Char × ℕ) :=
  match s with
  | '<' :: c1 :: d :: rest =>
    if (c1 = 'h' ∨ c1 = 'H') ∧ '1' ≤ d ∧ d ≤ '6' then
      let attrs := rest.takeWhile (fun c => c ≠ '>')
      match rest.dropWhile (fun c => c ≠ '>') with
      | _ :: body =>
        (firstIndexOfCI ('<' :: '/' :: c1 :: [d, '>']) body).map
          (fun k => (body.take k, 2 + attrs.length + 1 + k + 5))
      | [] => none
    else none
  | _ => none

/-- Fueled worker for the heading exec loop. -/
def scanHeadingsF : ℕ → ℕ → List Char → List (ℕ × ℕ × List Char)
  | 0, _, _ => []
  | f + 1, pos, s =>
    match s with
    | [] => []
    | c :: rest =>
      match matchHeadingAt (c :: rest) with
      | some (inner, n) =>
        (pos, pos + n + 1, inner) :: scanHeadingsF f (pos + n + 1) (rest.drop n)
      | none => scanHeadingsF f (pos + 1) rest

/-- All heading matches as (match start, match end, raw inner capture), with
absolute positions, in the order of the global exec loop. -/
def scanHeadings (pos : ℕ) (s : List Char) : List (ℕ × ℕ × List Char) :=
  scanHeadingsF s.length pos s

/-- The normalized lowercased text of a heading capture:
decodeHtmlEntities(innerRaw.replace(tags, " ").replace(ws, " ")).toLowerCase(). -/
def headingText (innerRaw : List Char) : List Char :=
  toLowerJs (decodeHtmlEntities (collapseWs (stripTags innerRaw)))

/-- The headings whose normalized text mentions "ingredient". -/
def ingredientHeadings (html : List Char) : List (ℕ × ℕ × List Char) :=
  (scanHeadings 0 html).filter fun h => containsSub "ingredient".data (headingText h.2.2)

/-- The end position of the last heading mentioning "ingredient"
(ingredientsHeadingEndIndex in the source; none for its -1). -/
def lastIngredientHeadingEnd (html : List Char) : Option ℕ :=
  (ingredientHeadings html).getLast?.map fun h => h.2.1

/-- Does a heading end the ingredients slice? -/
def isStopHeading (innerRaw : List Char) : Bool :=
  let t := headingText innerRaw
  containsSub "direction".data t || containsSub "instruction".data t ||
    containsSub "method".data t || containsSub "step".data t

/-- Start position of the first stop heading of the slice. -/
def stopHeadingIdx (s : List Char) : Option ℕ :=
  ((scanHeadings 0 s).find? fun h => isStopHeading h.2.2).map fun h => h.1

/-- Try to match <li[^>]*>(lazy)</li> at the head of the input. -/
def matchLiAt (s : List Char) : Option (List Char × ℕ) :=
  if startsWithCI "<li".data s then
    let afterTag := s.drop 3
    let attrs := afterTag.takeWhile (fun c => c ≠ '>')
    match afterTag.dropWhile (fun c => c ≠ '>') with
    | _ :: body =>
      (firstIndexOfCI "</li>".data body).map
        (fun k => (body.take k, 2 + attrs.length + 1 + k + 5))
    | [] => none
  else none

/-- Fueled worker for the list-item exec loop. -/
def scanLisF : ℕ → List Char → List (List Char)
  | 0, _ => []
  | f + 1, s =>
    match s with
    | [] => []
    | c :: rest =>
      match matchLiAt (c :: rest) with
      | some (inner, n) => inner :: scanLisF f (rest.drop n)
      | none => scanLisF f rest

/-- All list-item captures of the slice, in document order. -/
def scanLis (s : List Char) : List (List Char) :=
  scanLisF s.length s

/-- The normalized text of a list-item capture (tags stripped, whitespace
collapsed, entities decoded). -/
def liText (innerRaw : List Char) : List Char :=
  decodeHtmlEntities (collapseWs (stripTags innerRaw))

/-- The nutritional / annotation noise filter of parseFromIngredientsSection. -/
def isNoiseLine (line : List Char) : Bool :=
  let lower := toLowerJs line
  containsSub "nutrition information".data lower ||
    "per serving".data.isPrefixOf lower ||
    "note:".data.isPrefixOf lower ||
    containsSub "calories".data lower ||
    (containsSub "fat ".data lower && containsSub "protein".data lower)

/-- parseFromIngredientsSection from recipeParser.ts: list-item texts between
the last ingredients heading and the first directions-like heading after it,
with empty and noise lines dropped. -/
def parseFromIngredientsSection (html : List Char) : List (List Char) :=
  match lastIngredientHeadingEnd html with
  | none => []
  | some e =>
    let afterHeading := html.drop e
    let sectionHtml :=
      match stopHeadingIdx afterHeading with
      | none => afterHeading
      | some k => afterHeading.take k
    let lines := ((scanLis sectionHtml).map liText).filter fun t => t ≠ []
    lines.filter fun l => !(isNoiseLine l)

/-- normalizeIngredients from recipeParser.ts. -/
def normalizeIngredients (lines : List (List Char)) : List Ingredient :=
  lines.map fun l => parseIngredientLine ⟨l⟩

/-! ## Title and servings fallbacks from the raw markup -/

/-- Last suffix position of the list satisfying p, if any. -/
def lastIndexWhere (p : List Char → Bool) : List Char → Option ℕ
  | [] => if p [] then some 0 else none
  | c :: rest =>
    match lastIndexWhere p rest with
    | some k => some (k + 1)
    | none => if p (c :: rest) then some 0 else none

/-- All suffix positions of the list satisfying p, in increasing order. -/
def suffixIndicesWhere (p : List Char → Bool) (s : List Char) : List ℕ :=
  (List.range (s.length + 1)).filter fun i => p (s.drop i)

/-- Does this suffix of a meta tag start with property=["]og:title["]
(either quote character, case-insensitive)? -/
def propOgTitleAt (s : List Char) : Bool :=
  startsWithCI "property=".data s &&
  (match s.drop 9 with
   | q :: r =>
     (q = '\"' || q = Char.ofNat 39) &&
     startsWithCI "og:title".data r &&
     (match r.drop 8 with
      | q2 :: _ => q2 = '\"' || q2 = Char.ofNat 39
      | [] => false)
   | [] => false)

/-- Capture of content=["]([^"]+)["] when it starts here: the non-empty run
of non-quote characters after the equals-quote, which must be closed by a
quote character. -/
def contentCaptureAt (s : List Char) : Option (List Char) :=
  if startsWithCI "content=".data s then
    match s.drop 8 with
    | q :: r =>
      if q = '\"' || q = Char.ofNat 39 then
        let cap := r.takeWhile fun c => ¬(c = '\"' ∨ c = Char.ofNat 39)
        match r.dropWhile (fun c => ¬(c = '\"' ∨ c = Char.ofNat 39)) with
        | _ :: _ => if cap = [] then none else some cap
        | [] => none
      else none
    | [] => none
  else none

/-- Rightmost content capture at offset at least one (the greedy [^>]+ between
the property attribute and the content attribute). -/
def contentSearch (t : List Char) : Option (List Char) :=
  ((suffixIndicesWhere (fun u => (contentCaptureAt u).isSome) (t.drop 1)).reverse.head?).bind
    fun j => contentCaptureAt ((t.drop 1).drop j)

/-- Capture of the og:title meta regex within the attribute run of one meta
tag, following the greedy backtracking order: rightmost property occurrence
first, then rightmost content occurrence after it. -/
def metaCapture (attrs : List Char) : Option (List Char) :=
  ((suffixIndicesWhere propOgTitleAt (attrs.drop 1)).reverse.filterMap fun i =>
    contentSearch ((attrs.drop 1).drop (i + 19))).head?

/-- Try to match the og:title meta regex at the head of the input. -/
def matchMetaAt (s : List Char) : Option (List Char) :=
  if startsWithCI "<meta".data s then
    let afterTag := s.drop 5
    let attrs := afterTag.takeWhile (fun c => c ≠ '>')
    match afterTag.dropWhile (fun c => c ≠ '>') with
    | _ :: _ => metaCapture attrs
    | [] => none
  else none

/-- First og:title capture of the document. -/
def findFirstMeta : List Char → Option (List Char)
  | [] => none
  | c :: rest =>
    match matchMetaAt (c :: rest) with
    | some cap => some cap
    | none => findFirstMeta rest

/-- Try to match <title[^>]*>([^<]*)<\/title> at the head of the input. -/
def matchTitleAt (s : List Char) : Option (List Char) :=
  if startsWithCI "<title".data s then
    let afterTag := s.drop 6
    match afterTag.dropWhile (fun c => c ≠ '>') with
    | _ :: body =>
      let cap := body.takeWhile fun c => c ≠ '<'
      if startsWithCI "</title>".data (body.dropWhile fun c => c ≠ '<') then some cap
      else none
    | [] => none
  else none

/-- First title-tag capture of the document. -/
def findFirstTitle : List Char → Option (List Char)
  | [] => none
  | c :: rest =>
    match matchTitleAt (c :: rest) with
    | some cap => some cap
    | none => findFirstTitle rest

/-- extractTitleFromHtml from recipeParser.ts: the og:title meta content if
present, else a non-empty title tag text, else the empty string. -/
def extractTitleFromHtml (html : List Char) : List Char :=
  match findFirstMeta html with
  | some cap => decodeHtmlEntities cap
  | none =>
    match findFirstTitle html with
    | some cap => if cap = [] then [] else decodeHtmlEntities cap
    | none => []

/-- Match of /serves[^0-9]\x7b0,20\x7d(\d+)/ anchored at this position of the
lowercased document. -/
def servesMatchAt (s : List Char) : Option ℕ :=
  if "serves".data.isPrefixOf s then
    let t := s.drop 6
    let gap := t.takeWhile fun c => ¬ c.isDigit
    if gap.length ≤ 20 then
      match t.dropWhile (fun c => ¬ c.isDigit) with
      | c :: r => some (natVal ((c :: r).takeWhile Char.isDigit))
      | [] => none
    else none
  else none

/-- Leftmost match of the serves-then-number pattern. -/
def findServes1 : List Char → Option ℕ
  | [] => none
  | c :: rest =>
    match servesMatchAt (c :: rest) with
    | some n => some n
    | none => findServes1 rest

/-- Match of /(\d+)[^0-9]\x7b0,10\x7dservings?/ anchored at this position. -/
def servings2MatchAt (s : List Char) : Option ℕ :=
  match s with
  | c :: _ =>
    if c.isDigit then
      let run := s.takeWhile Char.isDigit
      let t := s.dropWhile Char.isDigit
      if (List.range 11).any (fun n =>
          (t.take n).all (fun d => ¬ d.isDigit) && "serving".data.isPrefixOf (t.drop n)) then
        some (natVal run)
      else none
    else none
  | [] => none

/-- Leftmost match of the number-then-servings pattern. -/
def findServes2 : List Char → Option ℕ
  | [] => none
  | c :: rest =>
    match servings2MatchAt (c :: rest) with
    | some n => some n
    | none => findServes2 rest

/-- extractServingsFromHtml from recipeParser.ts, on the lowercased markup. -/
def extractServingsFromHtml (html : List Char) : Option ℕ :=
  let lower := toLowerJs html
  match findServes1 lower with
  | some n => some n
  | none => findServes2 lower

/-! ## The joshuaweissman.com title tweak -/

/-- Try to match <h1[^>]*>(lazy)</h1> at the head of the input. -/
def matchH1At (s : List Char) : Option (List Char × ℕ) :=
  if startsWithCI "<h1".data s then
    let afterTag := s.drop 3
    let attrs := afterTag.takeWhile (fun c => c ≠ '>')
    match afterTag.dropWhile (fun c => c ≠ '>') with
    | _ :: body =>
      (firstIndexOfCI "</h1>".data body).map
        (fun k => (body.take k, 2 + attrs.length + 1 + k + 5))
    | [] => none
  else none

/-- Fueled worker for the h1 exec loop. -/
def scanH1sF : ℕ → List Char → List (List Char)
  | 0, _ => []
  | f + 1, s =>
    match s with
    | [] => []
    | c :: rest =>
      match matchH1At (c :: rest) with
      | some (inner, n) => inner :: scanH1sF f (rest.drop n)
      | none => scanH1sF f rest

/-- All h1 captures of the document, in order. -/
def scanH1s (s : List Char) : List (List Char) :=
  scanH1sF s.length s

/-- The newsletter banner test /get notified about new recipes/i. -/
def newsletterRe (t : List Char) : Bool :=
  containsSubCI "get notified about new recipes".data t

/-- tweakNewsletterTitle from recipeParser.ts. -/
def tweakNewsletterTitle (domain html currentTitle : List Char) : List Char :=
  if domain ≠ "joshuaweissman.com".data ∨ ¬ newsletterRe currentTitle then currentTitle
  else
    let h1Texts := ((scanH1s html).map liText).filter fun t => t ≠ []
    let alt : Option (List Char) :=
      match h1Texts.find? (fun t => !(newsletterRe t)) with
      | some t => some t
      | none => (h1Texts.drop 1).head?
    match alt with
    | some t => if t = [] then currentTitle else t
    | none => currentTitle

/-! ## URL hostname (modelled platform builtin) and the orchestrator -/

/-- Part of the authority after the last at sign (userinfo stripped). -/
def afterLastAt (l : List Char) : List Char :=
  (l.reverse.takeWhile fun c => c ≠ '@').reverse

/-- Strip a trailing :port from a host-port string. -/
def dropPort (l : List Char) : List Char :=
  if l.contains ':' then ((l.reverse.dropWhile fun c => c ≠ ':').reverse).dropLast
  else l

/-- Modelled platform builtin: a simplified WHATWG URL parser.  new URL(url)
throws exactly when this returns none (no scheme prefix, so the string is not
a well-formed absolute URL); for scheme://authority URLs the hostname is the
lowercased host with userinfo and port stripped, and for other absolute URLs
the hostname is empty. -/
def jsUrlHostname : List Char → Option (List Char)
  | [] => none
  | c :: rest =>
    if c.isAlpha then
      match (c :: rest).dropWhile (fun d => d.isAlphanum || d = '+' || d = '-' || d = '.') with
      | ':' :: after =>
        match after with
        | '/' :: '/' :: rest2 =>
          let authority := rest2.takeWhile fun d => ¬(d = '/' ∨ d = '?' ∨ d = '#')
          some (toLowerJs (dropPort (afterLastAt authority)))
        | _ => some []
      | _ => none
    else none

/-- parsed.hostname.replace(/^www\./, ""). -/
def stripWww (h : List Char) : List Char :=
  if "www.".data.isPrefixOf h then h.drop 4 else h

/-- The domain computed at the top of parseRecipeHtml: the hostname of the
URL without a leading www., or the empty string when new URL throws. -/
def domainOf (url : String) : List Char :=
  match jsUrlHostname url.data with
  | some h => stripWww h
  | none => []

/-- The result assembled by the successful structured-data branch of
parseRecipeHtml: structured title (with document and URL fallbacks and the
newsletter tweak), structured servings with the document fallback, and the
structured ingredient records unchanged. -/
def jsonLdSuccess (url html : String) (r : ParsedRecipe) : ParsedRecipe :=
  let rawTitle : List Char :=
    if r.title.data ≠ [] then r.title.data
    else if extractTitleFromHtml html.data ≠ [] then extractTitleFromHtml html.data
    else url.data
  ⟨⟨tweakNewsletterTitle (domainOf url) html.data rawTitle⟩,
    (match r.servings with
     | some s => some s
     | none => (extractServingsFromHtml html.data).map (fun n => (n : ℚ))),
    r.ingredients⟩

/-- The fallback branch of parseRecipeHtml: heuristic section extraction with
document-level title and servings. -/
def fallbackParse (url html : String) : ParsedRecipe :=
  let lines := parseFromIngredientsSection html.data
  let rawTitle :=
    if extractTitleFromHtml html.data ≠ [] then extractTitleFromHtml html.data else url.data
  ⟨⟨tweakNewsletterTitle (domainOf url) html.data rawTitle⟩,
    (extractServingsFromHtml html.data).map (fun n => (n : ℚ)),
    normalizeIngredients lines⟩

/-- parseRecipeHtml from recipeParser.ts: the extraction entry point over the
markup.  The error case surfaces the TypeError of a non-string structured
title (the only uncaught exception of the source). -/
def parseRecipeHtml (url : String) (html : String) : Except String ParsedRecipe :=
  match parseFromJsonLd html.data with
  | Except.error e => Except.error e
  | Except.ok (some r) =>
    if 0 < r.ingredients.length then Except.ok (jsonLdSuccess url html r)
    else Except.ok (fallbackParse url html)
  | Except.ok none => Except.ok (fallbackParse url html)

/-- Decidable equality of results and errors. -/
instance {α β : Type} [DecidableEq α] [DecidableEq β] : DecidableEq (Except α β) :=
  fun x y =>
    match x, y with
    | Except.ok a, Except.ok b =>
      if h : a = b then isTrue (by rw [h]) else isFalse (fun hh => h (Except.ok.inj hh))
    | Except.error a, Except.error b =>
      if h : a = b then isTrue (by rw [h]) else isFalse (fun hh => h (Except.error.inj hh))
    | Except.ok _, Except.error _ => isFalse (fun hh => Except.noConfusion hh)
    | Except.error _, Except.ok _ => isFalse (fun hh => Except.noConfusion hh)

/-- The preview shape returned by the scraper entry point. -/
structure ParsedRecipePreview where
  title : String
  sourceUrl : String
  servings : Option ℚ
  ingredients : List Ingredient
deriving DecidableEq, Repr

/-- Model of the entry point parseRecipeFromUrl of the scraper module, up to
its collaborators: the network fetch is a parameter returning markup or a
transport failure, and the processing after a successful fetch (the generic
parser plus the per-domain fallbacks) is abstracted by the rest continuation.
The URL validation happens first, mirroring the source: when the URL model
rejects the string, new URL throws and the catch block surfaces the
distinguishable invalid-url error before any fetch or parsing. -/
def parseRecipeFromUrl (fetchFn : String → Except String String)
    (rest : String → String → ParsedRecipePreview) (url : String) :
    Except String ParsedRecipePreview :=
  match jsUrlHostname url.data with
  | none => Except.error "invalid recipe url"
  | some _ =>
    match fetchFn url with
    | Except.error code => Except.error ("failed to fetch recipe page. status: " ++ code)
    | Except.ok html => Except.ok (rest url html)

end FoodRun

namespace FoodRun

set_option maxRecDepth 16000
set_option maxHeartbeats 1000000

/-! ## Shared helper lemmas -/

/-- A list with a known head splits as a cons. -/
theorem head_eq_cons {α : Type} {l : List α} {a : α} (h : l.head? = some a) :
    ∃ t, l = a :: t := by
  cases l with
  | nil => simp at h
  | cons x t =>
    simp only [List.head?_cons, Option.some.injEq] at h
    exact ⟨t, by rw [h]⟩

/-- A token containing a slash is NaN for Number(). -/
theorem jsNumber_slash_none (tok : List Char) (h : tok.contains '/' = true) :
    jsNumberOfToken tok = none := by
  have hmem : '/' ∈ tok := by simpa using h
  have hne : ¬ tok = [] := by rintro rfl; simp at hmem
  have hall : ¬ (tok.all isNumTokChar ∧ tok.count '.' ≤ 1 ∧ tok.any Char.isDigit) := by
    rintro ⟨hall, -, -⟩
    have h2 := List.all_eq_true.mp hall '/' hmem
    simp [isNumTokChar] at h2
  unfold jsNumberOfToken
  rw [if_neg hne, if_neg hall]

/-- When the structured pass found a recipe node with a well-typed title, it
returns the candidate assembled from that node. -/
theorem parseFromJsonLd_eq (html : List Char) (node : Json) (t : String)
    (hnode : (allRecipeNodesOf html).head? = some node)
    (ht : titleOf node = Except.ok t) :
    parseFromJsonLd html = Except.ok (some ⟨t, servingsOf node,
      (ingredientStringsOf node).map (fun s => parseIngredientLine s)⟩) := by
  obtain ⟨tl, htl⟩ := head_eq_cons hnode
  unfold parseFromJsonLd
  rw [htl]
  simp only [ht]

/-- Mapped-in strings pass the ingredient entry extraction unchanged. -/
theorem filterMap_entry_str (ss : List String) :
    (ss.map Json.str).filterMap ingredientEntryText = ss := by
  induction ss with
  | nil => rfl
  | cons s rest ih =>
    simp only [List.map_cons, List.filterMap_cons]
    rw [show ingredientEntryText (Json.str s) = some s from rfl, ih]

/-- An all-string ingredients array contributes exactly its strings. -/
theorem ingredientStringsOf_strings (node : Json) (ss : List String)
    (h : rawIngredientsOf node = Json.arr (ss.map Json.str)) :
    ingredientStringsOf node = ss := by
  unfold ingredientStringsOf
  rw [h]
  exact filterMap_entry_str ss

/-- The successful structured-data branch of the orchestrator. -/
theorem jsonLdBranch (url html : String) (r : ParsedRecipe)
    (h : parseFromJsonLd html.data = Except.ok (some r))
    (hne : 0 < r.ingredients.length) :
    parseRecipeHtml url html = Except.ok (jsonLdSuccess url html r) := by
  unfold parseRecipeHtml
  rw [h]
  simp only [if_pos hne]

/-- The structured branch returns the structured records unchanged. -/
theorem jsonLdSuccess_ingredients (url html : String) (r : ParsedRecipe) :
    (jsonLdSuccess url html r).ingredients = r.ingredients := rfl

/-- Structured servings win in the structured branch. -/
theorem jsonLdSuccess_servings_some (url html : String) (r : ParsedRecipe) (s : ℚ)
    (h : r.servings = some s) : (jsonLdSuccess url html r).servings = some s := by
  unfold jsonLdSuccess
  simp only [h]

/-- Absent structured servings fall back to the document scan. -/
theorem jsonLdSuccess_servings_none (url html : String) (r : ParsedRecipe)
    (h : r.servings = none) :
    (jsonLdSuccess url html r).servings =
      (extractServingsFromHtml html.data).map (fun n => (n : ℚ)) := by
  unfold jsonLdSuccess
  simp only [h]

/-- Members of the heuristic extractor output are never noise lines. -/
theorem sectionLines_not_noise (html : List Char) :
    ∀ l ∈ parseFromIngredientsSection html, isNoiseLine l = false := by
  intro l hl
  unfold parseFromIngredientsSection at hl
  cases hlast : lastIngredientHeadingEnd html with
  | none => rw [hlast] at hl; simp at hl
  | some e =>
    rw [hlast] at hl
    simp only [List.mem_filter] at hl
    have := hl.2
    simpa using this

/-! ## C1 -/

/-- C1: on the Keto Chili scenario markup and URL, the extraction entry point
returns title "Keto Chili", servings 6, and exactly the records for
"2 lbs ground beef" and "1 onion", in that order. -/
theorem scenario_keto_chili :
    parseRecipeHtml "https://example.com/chili"
      "<script type=\"application/ld+json\">\x7b\"@type\":\"Recipe\",\"name\":\"Keto Chili\",\"recipeYield\":\"6\",\"recipeIngredient\":[\"2 lbs ground beef\",\"1 onion\"]\x7d</script>" =
    Except.ok ⟨"Keto Chili", some 6,
      [⟨"ground beef", some 2, some "lbs", none⟩,
       ⟨"onion", some 1, none, none⟩]⟩ := by
  decide

/-! ## C2 -/

/-- C2: when the first structured recipe node of the markup carries a list of
one or more ingredient strings (and a well-typed title), the entry point
returns exactly one record per ingredient string, in the same order. -/
theorem structured_ingredients_one_record_per_string
    (url html : String) (node : Json) (t : String) (ss : List String)
    (hnode : (allRecipeNodesOf html.data).head? = some node)
    (ht : titleOf node = Except.ok t)
    (hing : rawIngredientsOf node = Json.arr (ss.map Json.str))
    (hne : ss ≠ []) :
    ∃ r, parseRecipeHtml url html = Except.ok r ∧
      r.ingredients = ss.map (fun s => parseIngredientLine s) := by
  have hs := ingredientStringsOf_strings node ss hing
  have hp := parseFromJsonLd_eq html.data node t hnode ht
  rw [hs] at hp
  have hlen : 0 < (ss.map (fun s => parseIngredientLine s)).length := by
    rw [List.length_map]
    exact List.length_pos.mpr hne
  exact ⟨_, jsonLdBranch url html _ hp hlen, jsonLdSuccess_ingredients url html _⟩

/-- C2 witness: a concrete two-string structured block. -/
theorem structured_ingredients_one_record_per_string_witness :
    ∃ r, parseRecipeHtml "https://example.com/salad"
        "<script type=\"application/ld+json\">\x7b\"@type\":\"Recipe\",\"name\":\"Salad\",\"recipeIngredient\":[\"1 apple\",\"2 cups spinach\"]\x7d</script>" =
        Except.ok r ∧
      r.ingredients = (["1 apple", "2 cups spinach"].map (fun s => parseIngredientLine s)) :=
  structured_ingredients_one_record_per_string
    "https://example.com/salad"
    "<script type=\"application/ld+json\">\x7b\"@type\":\"Recipe\",\"name\":\"Salad\",\"recipeIngredient\":[\"1 apple\",\"2 cups spinach\"]\x7d</script>"
    (Json.obj [("@type", Json.str "Recipe"), ("name", Json.str "Salad"),
      ("recipeIngredient", Json.arr [Json.str "1 apple", Json.str "2 cups spinach"])])
    "Salad" ["1 apple", "2 cups spinach"] rfl rfl rfl (by decide)

/-! ## C3 -/

/-- C3: a source URL the URL model rejects makes the pipeline fail fast with
the distinguishable invalid-url error, for every fetcher and every
continuation - hence before any fetch and before any parsing of markup. -/
theorem invalid_url_fails_fast (url : String)
    (h : jsUrlHostname url.data = none) :
    ∀ (fetchFn : String → Except String String)
      (rest : String → String → ParsedRecipePreview),
      parseRecipeFromUrl fetchFn rest url = Except.error "invalid recipe url" := by
  intro fetchFn rest
  unfold parseRecipeFromUrl
  rw [h]

/-- C3 witness: the string "notaurl" is rejected before fetch and parse. -/
theorem invalid_url_fails_fast_witness :
    jsUrlHostname "notaurl".data = none ∧
    parseRecipeFromUrl (fun _ => Except.ok "<html></html>")
      (fun _ _ => ⟨"", "", none, []⟩) "notaurl" = Except.error "invalid recipe url" :=
  ⟨by decide, invalid_url_fails_fast "notaurl" (by decide) _ _⟩

/-! ## C4 -/

/-- C4 (code bug exhibit): a structured recipe block whose name field is a
number makes the entry point throw the TypeError raised inside
decodeHtmlEntities, instead of degrading to the next strategy. -/
theorem orchestrator_throws_on_numeric_title :
    parseRecipeHtml "https://example.com/x"
      "<script type=\"application/ld+json\">\x7b\"@type\":\"Recipe\",\"name\":123,\"recipeIngredient\":[\"1 egg\"]\x7d</script>" =
    Except.error "TypeError: raw.replace is not a function" := by
  decide

/-! ## C5 -/

/-- C5 counterexample: on "1/2 cup sugar" the tokenizer does not set amount
to the fraction value one half; the whole line stays in name. -/
theorem fraction_amount_counterexample :
    parseIngredientLine "1/2 cup sugar" = ⟨"1/2 cup sugar", none, none, none⟩ ∧
    (parseIngredientLine "1/2 cup sugar").amount ≠ some ((1 : ℚ) / 2) := by
  constructor
  · decide
  · decide

/-- C5 amended: a first token whose stripped remainder contains a slash is
NaN for Number(), so the tokenizer sets no amount and no unit and keeps the
entire normalized line as the name. -/
theorem fraction_token_not_number (raw : String) (p0 : List Char)
    (rest : List (List Char))
    (hsplit : splitOnSpace (normalizeLine raw.data) = p0 :: rest)
    (hslash : p0.contains '/' = true) :
    parseIngredientLine raw = ⟨⟨normalizeLine raw.data⟩, none, none, none⟩ := by
  have hslash2 : (stripNonAmountChars p0).contains '/' = true := by
    have hmem : '/' ∈ p0 := by simpa using hslash
    have : '/' ∈ stripNonAmountChars p0 := by
      unfold stripNonAmountChars
      rw [List.mem_filter]
      exact ⟨hmem, by decide⟩
    simpa using this
  have hnum : jsNumberOfToken (stripNonAmountChars p0) = none :=
    jsNumber_slash_none _ hslash2
  unfold parseIngredientLine
  by_cases htext : normalizeLine raw.data = []
  · rw [htext] at hsplit
    simp only [splitOnSpace, List.cons.injEq] at hsplit
    obtain ⟨h1, -⟩ := hsplit
    rw [← h1] at hslash
    simp at hslash
  · rw [if_neg htext, hsplit]
    dsimp only []
    rw [hnum]

/-- C5 witness: the amended statement at "1/2 cup sugar". -/
theorem fraction_token_not_number_witness :
    parseIngredientLine "1/2 cup sugar" =
      ⟨⟨normalizeLine "1/2 cup sugar".data⟩, none, none, none⟩ :=
  fraction_token_not_number "1/2 cup sugar" "1/2".data ["cup".data, "sugar".data]
    (by decide) (by decide)

/-! ## C6 -/

/-- C6 counterexample: a structured numeric yield of zero is returned as
servings zero, which is neither absent nor a positive integer. -/
theorem servings_zero_counterexample :
    ∃ r, parseRecipeHtml "https://example.com/x"
        "<script type=\"application/ld+json\">\x7b\"@type\":\"Recipe\",\"name\":\"x\",\"recipeYield\":0,\"recipeIngredient\":[\"1 egg\"]\x7d</script>" =
        Except.ok r ∧
      r.servings = some 0 ∧
      ¬(r.servings = none ∨ ∃ n : ℕ, 0 < n ∧ r.servings = some (n : ℚ)) := by
  refine ⟨⟨"x", some 0, [⟨"egg", some 1, none, none⟩]⟩, by decide, rfl, ?_⟩
  rintro (h | ⟨n, hn, h⟩)
  · cases h
  · have h2 : ((0 : ℚ)) = (n : ℚ) := Option.some.inj h
    have : n = 0 := by exact_mod_cast h2.symm
    omega

/-- C6 amended: the returned servings is absent, or a natural number (any
value parsed out of a digit run), or exactly the raw numeric structured yield
- which is passed through unchecked, so zero, negative or non-integral values
can appear. -/
theorem servings_shape (url html : String) (r : ParsedRecipe)
    (h : parseRecipeHtml url html = Except.ok r) :
    r.servings = none ∨ (∃ n : ℕ, r.servings = some (n : ℚ)) ∨
    (∃ node q, (allRecipeNodesOf html.data).head? = some node ∧
      jsCoalesce node ["recipeYield", "recipeServings", "yield"] = some (Json.num q) ∧
      r.servings = some q) := by
  have hfb : (fallbackParse url html).servings = none ∨
      (∃ n : ℕ, (fallbackParse url html).servings = some (n : ℚ)) := by
    unfold fallbackParse
    cases hs : extractServingsFromHtml html.data with
    | none => left; simp [hs]
    | some n => right; exact ⟨n, by simp [hs]⟩
  unfold parseRecipeHtml at h
  cases hp : parseFromJsonLd html.data with
  | error e => rw [hp] at h; cases h
  | ok fromJsonLd =>
    rw [hp] at h
    cases fromJsonLd with
    | none =>
      dsimp only [] at h
      simp only [Except.ok.injEq] at h
      rw [← h]
      rcases hfb with h2 | h2
      · left; exact h2
      · right; left; exact h2
    | some r0 =>
      dsimp only [] at h
      by_cases hlen : 0 < r0.ingredients.length
      · rw [if_pos hlen] at h
        simp only [Except.ok.injEq] at h
        cases hs : r0.servings with
        | none =>
          have hserv := jsonLdSuccess_servings_none url html r0 hs
          rw [h] at hserv
          cases hh : extractServingsFromHtml html.data with
          | none => left; rw [hserv, hh]; rfl
          | some n => right; left; exact ⟨n, by rw [hserv, hh]; rfl⟩
        | some s =>
          have hserv2 := jsonLdSuccess_servings_some url html r0 s hs
          rw [h] at hserv2
          unfold parseFromJsonLd at hp
          cases han : allRecipeNodesOf html.data with
          | nil => rw [han] at hp; simp at hp
          | cons node tl =>
            rw [han] at hp
            dsimp only [] at hp
            cases htl : titleOf node with
            | error e => rw [htl] at hp; simp at hp
            | ok t =>
              rw [htl] at hp
              dsimp only [] at hp
              simp only [Except.ok.injEq, Option.some.injEq] at hp
              have hserv : servingsOf node = some s := by rw [← hp] at hs; exact hs
              unfold servingsOf at hserv
              cases hc : jsCoalesce node ["recipeYield", "recipeServings", "yield"] with
              | none => rw [hc] at hserv; cases hserv
              | some v =>
                rw [hc] at hserv
                dsimp only [] at hserv
                cases v with
                | num q =>
                  right; right
                  refine ⟨node, q, rfl, hc, ?_⟩
                  have hq : q = s := by
                    simpa [extractServings] using hserv
                  rw [hserv2, hq]
                | str sv =>
                  right; left
                  cases hr : firstDigitRun sv.data with
                  | none => simp [extractServings, hr] at hserv
                  | some run =>
                    refine ⟨natVal run, ?_⟩
                    have hq : ((natVal run : ℚ)) = s := by
                      simpa [extractServings, hr] using hserv
                    rw [hserv2, ← hq]
                | null => simp [extractServings] at hserv
                | bool b => simp [extractServings] at hserv
                | arr l => simp [extractServings] at hserv
                | obj fl => simp [extractServings] at hserv
      · rw [if_neg hlen] at h
        simp only [Except.ok.injEq] at h
        rw [← h]
        rcases hfb with h2 | h2
        · left; exact h2
        · right; left; exact h2

/-- C6 witness: the amended statement at the zero-yield block. -/
theorem servings_shape_witness :
    (parseRecipeHtml "https://example.com/x"
        "<script type=\"application/ld+json\">\x7b\"@type\":\"Recipe\",\"name\":\"x\",\"recipeYield\":0,\"recipeIngredient\":[\"1 egg\"]\x7d</script>").map
        (fun r => r.servings) = Except.ok (some 0) ∧
    ((⟨"x", some 0, [⟨"egg", some 1, none, none⟩]⟩ : ParsedRecipe).servings = none ∨
      (∃ n : ℕ, (⟨"x", some 0, [⟨"egg", some 1, none, none⟩]⟩ : ParsedRecipe).servings = some (n : ℚ)) ∨
      (∃ node q,
        (allRecipeNodesOf ("<script type=\"application/ld+json\">\x7b\"@type\":\"Recipe\",\"name\":\"x\",\"recipeYield\":0,\"recipeIngredient\":[\"1 egg\"]\x7d</script>" : String).data).head? = some node ∧
        jsCoalesce node ["recipeYield", "recipeServings", "yield"] = some (Json.num q) ∧
        (⟨"x", some 0, [⟨"egg", some 1, none, none⟩]⟩ : ParsedRecipe).servings = some q)) :=
  ⟨by decide,
    servings_shape "https://example.com/x" _ ⟨"x", some 0, [⟨"egg", some 1, none, none⟩]⟩
      (by decide)⟩

/-! ## C7 -/

/-- C7: with at least two ingredient headings and no directions-like heading
after the last one, the heuristic extractor collects exactly the (non-empty,
non-noise) list-item texts after the last ingredient heading, and nothing
that is not a list item of that final slice. -/
theorem last_ingredient_heading_wins (html : List Char) (e : ℕ)
    (h2 : 2 ≤ (ingredientHeadings html).length)
    (hlast : lastIngredientHeadingEnd html = some e)
    (hstop : stopHeadingIdx (html.drop e) = none) :
    parseFromIngredientsSection html =
      ((((scanLis (html.drop e)).map liText).filter (fun t => t ≠ [])).filter
        (fun l => !(isNoiseLine l))) ∧
    ∀ l ∈ parseFromIngredientsSection html, l ∈ (scanLis (html.drop e)).map liText := by
  have heq : parseFromIngredientsSection html =
      ((((scanLis (html.drop e)).map liText).filter (fun t => t ≠ [])).filter
        (fun l => !(isNoiseLine l))) := by
    unfold parseFromIngredientsSection
    rw [hlast]
    dsimp only []
    rw [hstop]
  refine ⟨heq, ?_⟩
  intro l hl
  rw [heq] at hl
  simp only [List.mem_filter] at hl
  exact hl.1.1

/-- C7 witness: items between the first and second ingredient headings (the
"old item") are excluded; only the item after the last heading is kept. -/
theorem last_ingredient_heading_wins_witness :
    (2 ≤ (ingredientHeadings "<h2>Ingredients</h2><ul><li>old item</li></ul><h2>Also ingredients</h2><ul><li>1 cup rice</li></ul>".data).length ∧
      parseFromIngredientsSection "<h2>Ingredients</h2><ul><li>old item</li></ul><h2>Also ingredients</h2><ul><li>1 cup rice</li></ul>".data = ["1 cup rice".data]) ∧
    (parseFromIngredientsSection "<h2>Ingredients</h2><ul><li>old item</li></ul><h2>Also ingredients</h2><ul><li>1 cup rice</li></ul>".data =
        ((((scanLis ("<h2>Ingredients</h2><ul><li>old item</li></ul><h2>Also ingredients</h2><ul><li>1 cup rice</li></ul>".data.drop 71)).map liText).filter (fun t => t ≠ [])).filter
          (fun l => !(isNoiseLine l))) ∧
      ∀ l ∈ parseFromIngredientsSection "<h2>Ingredients</h2><ul><li>old item</li></ul><h2>Also ingredients</h2><ul><li>1 cup rice</li></ul>".data,
        l ∈ (scanLis ("<h2>Ingredients</h2><ul><li>old item</li></ul><h2>Also ingredients</h2><ul><li>1 cup rice</li></ul>".data.drop 71)).map liText) :=
  ⟨⟨by decide, by decide⟩,
    last_ingredient_heading_wins
      "<h2>Ingredients</h2><ul><li>old item</li></ul><h2>Also ingredients</h2><ul><li>1 cup rice</li></ul>".data
      71 (by decide) (by decide) (by decide)⟩

/-! ## C10 -/

/-- C10: the noise filter only guards the heuristic extractor.  A noise line
among the structured ingredient strings is still tokenized and returned,
while no heuristic output line is ever a noise line. -/
theorem structured_noise_lines_kept (url html : String) (node : Json)
    (t line : String) (ss : List String)
    (hnode : (allRecipeNodesOf html.data).head? = some node)
    (ht : titleOf node = Except.ok t)
    (hing : rawIngredientsOf node = Json.arr (ss.map Json.str))
    (hmem : line ∈ ss)
    (hnoise : isNoiseLine line.data = true) :
    (∃ r, parseRecipeHtml url html = Except.ok r ∧
      parseIngredientLine line ∈ r.ingredients) ∧
    ∀ l ∈ parseFromIngredientsSection html.data, isNoiseLine l = false := by
  constructor
  · have hs := ingredientStringsOf_strings node ss hing
    have hp := parseFromJsonLd_eq html.data node t hnode ht
    rw [hs] at hp
    have hlen : 0 < (ss.map (fun s => parseIngredientLine s)).length := by
      rw [List.length_map]
      exact List.length_pos.mpr (fun h => by rw [h] at hmem; simp at hmem)
    refine ⟨_, jsonLdBranch url html _ hp hlen, ?_⟩
    rw [jsonLdSuccess_ingredients]
    exact List.mem_map_of_mem _ hmem
  · exact sectionLines_not_noise html.data

/-- C10 witness: the nutrition-looking structured ingredient string
"Per serving: 320 calories" is returned as a record. -/
theorem structured_noise_lines_kept_witness :
    (∃ r, parseRecipeHtml "https://example.com/bars"
        "<script type=\"application/ld+json\">\x7b\"@type\":\"Recipe\",\"name\":\"Bars\",\"recipeIngredient\":[\"Per serving: 320 calories\",\"1 egg\"]\x7d</script>" =
        Except.ok r ∧
      parseIngredientLine "Per serving: 320 calories" ∈ r.ingredients) ∧
    ∀ l ∈ parseFromIngredientsSection
        ("<script type=\"application/ld+json\">\x7b\"@type\":\"Recipe\",\"name\":\"Bars\",\"recipeIngredient\":[\"Per serving: 320 calories\",\"1 egg\"]\x7d</script>" : String).data,
      isNoiseLine l = false :=
  structured_noise_lines_kept "https://example.com/bars"
    "<script type=\"application/ld+json\">\x7b\"@type\":\"Recipe\",\"name\":\"Bars\",\"recipeIngredient\":[\"Per serving: 320 calories\",\"1 egg\"]\x7d</script>"
    (Json.obj [("@type", Json.str "Recipe"), ("name", Json.str "Bars"),
      ("recipeIngredient", Json.arr [Json.str "Per serving: 320 calories", Json.str "1 egg"])])
    "Bars" "Per serving: 320 calories" ["Per serving: 320 calories", "1 egg"]
    rfl rfl rfl (by decide) (by decide)

/-! ## C8 helper lemmas: splitting and joining -/

/-- Splitting never yields an empty piece list. -/
theorem splitOnSpace_ne_nil (l : List Char) : splitOnSpace l ≠ [] := by
  cases l with
  | nil => simp [splitOnSpace]
  | cons c rest =>
    simp only [splitOnSpace]
    by_cases h : c = ' '
    · simp [h]
    · rw [if_neg h]
      cases splitOnSpace rest <;> simp

/-- Pieces of a split contain no space. -/
theorem splitOnSpace_no_space (l : List Char) :
    ∀ p ∈ splitOnSpace l, ' ' ∉ p := by
  induction l with
  | nil =>
    intro p hp
    simp only [splitOnSpace, List.mem_singleton] at hp
    simp [hp]
  | cons c rest ih =>
    intro p hp
    simp only [splitOnSpace] at hp
    by_cases h : c = ' '
    · rw [if_pos h] at hp
      rcases List.mem_cons.mp hp with h1 | h1
      · simp [h1]
      · exact ih p h1
    · rw [if_neg h] at hp
      cases hs : splitOnSpace rest with
      | nil => exact absurd hs (splitOnSpace_ne_nil rest)
      | cons piece more =>
        rw [hs] at hp
        rcases List.mem_cons.mp hp with h1 | h1
        · subst h1
          intro hmem
          rcases List.mem_cons.mp hmem with h2 | h2
          · exact h h2.symm
          · exact ih piece (by rw [hs]; exact List.mem_cons_self _ _) h2
        · exact ih p (by rw [hs]; exact List.mem_cons_of_mem _ h1)

/-- Splitting after a space-free piece and a separating space. -/
theorem splitOnSpace_append_space (a t : List Char) (ha : ' ' ∉ a) :
    splitOnSpace (a ++ ' ' :: t) = a :: splitOnSpace t := by
  induction a with
  | nil => simp [splitOnSpace]
  | cons c a2 ih =>
    have hc : ¬ c = ' ' := fun h => ha (h ▸ List.mem_cons_self _ _)
    have ih2 := ih (fun hm => ha (List.mem_cons_of_mem _ hm))
    show splitOnSpace (c :: (a2 ++ ' ' :: t)) = _
    simp only [splitOnSpace, if_neg hc, ih2]

/-- A space-free string splits into itself. -/
theorem splitOnSpace_single (l : List Char) (h : ' ' ∉ l) : splitOnSpace l = [l] := by
  induction l with
  | nil => rfl
  | cons c rest ih =>
    have hc : ¬ c = ' ' := fun hh => h (hh ▸ List.mem_cons_self _ _)
    simp only [splitOnSpace]
    rw [if_neg hc, ih (fun hm => h (List.mem_cons_of_mem _ hm))]

/-- Splitting inverts joining of space-free pieces. -/
theorem splitOnSpace_joinSpace (ps : List (List Char)) (hne : ps ≠ [])
    (h : ∀ p ∈ ps, ' ' ∉ p) : splitOnSpace (joinSpace ps) = ps := by
  induction ps with
  | nil => exact absurd rfl hne
  | cons p rest ih =>
    cases rest with
    | nil => exact splitOnSpace_single p (h p (List.mem_cons_self _ _))
    | cons q more =>
      show splitOnSpace (p ++ ' ' :: joinSpace (q :: more)) = _
      rw [splitOnSpace_append_space _ _ (h p (List.mem_cons_self _ _)),
        ih (by simp) (fun x hx => h x (List.mem_cons_of_mem _ hx))]

/-- The head of a dropWhile result fails the predicate. -/
theorem dropWhile_head_false {p : Char → Bool} {l : List Char} {c : Char}
    (h : (l.dropWhile p).head? = some c) : p c = false := by
  induction l with
  | nil => simp [List.dropWhile] at h
  | cons x rest ih =>
    rw [List.dropWhile_cons] at h
    by_cases hp : p x
    · rw [if_pos hp] at h; exact ih h
    · rw [if_neg hp] at h
      simp only [List.head?_cons, Option.some.injEq] at h
      rw [← h]
      exact Bool.not_eq_true _ |>.mp hp

/-- A trimmed string never ends in whitespace. -/
theorem trimJs_getLast_not_ws (l : List Char) (c : Char)
    (h : (trimJs l).getLast? = some c) : isJsWs c = false := by
  unfold trimJs at h
  rw [List.getLast?_reverse] at h
  exact dropWhile_head_false h

/-- A normalized line never ends in whitespace. -/
theorem normalizeLine_getLast_not_ws (l : List Char) (c : Char)
    (h : (normalizeLine l).getLast? = some c) : isJsWs c = false := by
  unfold normalizeLine at h
  exact trimJs_getLast_not_ws _ c h

/-! ## C8 helper lemmas: digit strings and their values -/

/-- The numeric value accumulates over a fold step. -/
theorem natVal_foldl (acc : ℕ) (b : List Char) :
    b.foldl (fun a c => 10 * a + (c.toNat - 48)) acc =
      acc * 10 ^ b.length + natVal b := by
  induction b generalizing acc with
  | nil => simp [natVal]
  | cons c rest ih =>
    show rest.foldl _ (10 * acc + (c.toNat - 48)) = _
    rw [ih]
    have h2 : natVal (c :: rest) = (c.toNat - 48) * 10 ^ rest.length + natVal rest := by
      show rest.foldl _ (10 * 0 + (c.toNat - 48)) = _
      rw [ih]
      ring_nf
    rw [h2]
    simp [List.length_cons]
    ring

/-- The numeric value of concatenated digit runs. -/
theorem natVal_append (a b : List Char) :
    natVal (a ++ b) = natVal a * 10 ^ b.length + natVal b := by
  show (a ++ b).foldl _ 0 = _
  rw [List.foldl_append]
  exact natVal_foldl _ b

/-- A run of zero characters has value zero. -/
theorem natVal_zeros (n : ℕ) : natVal (List.replicate n '0') = 0 := by
  induction n with
  | zero => rfl
  | succ m ih =>
    rw [List.replicate_succ]
    show (List.replicate m '0').foldl _ (10 * 0 + ('0'.toNat - 48)) = 0
    rw [natVal_foldl, ih]
    have h0 : '0'.toNat - 48 = 0 := rfl
    rw [h0]
    ring

/-- Leading zero characters do not change the value. -/
theorem natVal_replicate_zero (n : ℕ) (b : List Char) :
    natVal (List.replicate n '0' ++ b) = natVal b := by
  rw [natVal_append, natVal_zeros]
  simp

/-- The code of a digit character. -/
theorem digitChar_toNat (d : ℕ) (h : d < 10) : (digitChar d).toNat = 48 + d := by
  interval_cases d <;> rfl

/-- Digit characters are digits. -/
theorem digitChar_isDigit (d : ℕ) (h : d < 10) : (digitChar d).isDigit = true := by
  interval_cases d <;> rfl

/-- The fueled digit rendering reads back to its value. -/
theorem natDigitsF_natVal (f : ℕ) : ∀ n, n ≤ f → natVal ((natDigitsF f n).reverse) = n := by
  induction f with
  | zero =>
    intro n h
    interval_cases n
    rfl
  | succ f2 ih =>
    intro n h
    by_cases hn : n = 0
    · subst hn
      rw [show natDigitsF (f2 + 1) 0 = [] from rfl]
      rfl
    · rw [show natDigitsF (f2 + 1) n = digitChar (n % 10) :: natDigitsF f2 (n / 10) by
        simp [natDigitsF, hn]]
      rw [List.reverse_cons, natVal_append]
      have hdiv : n / 10 ≤ f2 := by
        have := Nat.div_lt_self (Nat.pos_of_ne_zero hn) (show (1 : ℕ) < 10 by norm_num)
        omega
      rw [ih _ hdiv]
      have hmod : natVal [digitChar (n % 10)] = n % 10 := by
        show 10 * 0 + ((digitChar (n % 10)).toNat - 48) = n % 10
        rw [digitChar_toNat _ (Nat.mod_lt n (by norm_num))]
        omega
      rw [hmod]
      simp only [List.length_singleton]
      omega

/-- natToDigits renders the value back. -/
theorem natVal_natToDigits (n : ℕ) : natVal (natToDigits n) = n := by
  unfold natToDigits
  by_cases h : n = 0
  · rw [if_pos h, h]; rfl
  · rw [if_neg h]
    exact natDigitsF_natVal n n (le_refl n)

/-- The fueled digit rendering yields digit characters only. -/
theorem natDigitsF_all_digits (f : ℕ) : ∀ n, ∀ c ∈ natDigitsF f n, c.isDigit = true := by
  induction f with
  | zero => intro n c hc; simp [natDigitsF] at hc
  | succ f2 ih =>
    intro n c hc
    by_cases hn : n = 0
    · simp [natDigitsF, hn] at hc
    · rw [show natDigitsF (f2 + 1) n = digitChar (n % 10) :: natDigitsF f2 (n / 10) by
        simp [natDigitsF, hn]] at hc
      rcases List.mem_cons.mp hc with h1 | h1
      · subst h1
        exact digitChar_isDigit _ (Nat.mod_lt n (by norm_num))
      · exact ih _ c h1

/-- natToDigits yields digit characters only. -/
theorem natToDigits_all_digits (n : ℕ) :
    ∀ c ∈ natToDigits n, c.isDigit = true := by
  unfold natToDigits
  by_cases h : n = 0
  · rw [if_pos h]; intro c hc; simp at hc; rw [hc]; rfl
  · rw [if_neg h]
    intro c hc
    exact natDigitsF_all_digits n n c (List.mem_reverse.mp hc)

/-- natToDigits is never empty. -/
theorem natToDigits_ne_nil (n : ℕ) : natToDigits n ≠ [] := by
  unfold natToDigits
  by_cases h : n = 0
  · rw [if_pos h]; simp
  · rw [if_neg h]
    simp only [ne_eq, List.reverse_eq_nil_iff]
    cases n with
    | zero => exact absurd rfl h
    | succ m =>
      rw [show natDigitsF (m + 1) (m + 1) =
        digitChar ((m + 1) % 10) :: natDigitsF m ((m + 1) / 10) by simp [natDigitsF]]
      simp

/-! ## C8 helper lemmas: the decimal rendering -/

/-- A divisor of some power of ten divides the power given by its own size. -/
theorem dvd_ten_pow_self (d : ℕ) : ∀ K, d ∣ 10 ^ K → d ∣ 10 ^ d := by
  induction d using Nat.strong_induction_on with
  | _ d ih =>
    intro K h
    rcases Nat.lt_or_ge d 2 with hd | hd
    · interval_cases d
      · exfalso
        have h0 : (10 : ℕ) ^ K = 0 := Nat.eq_zero_of_zero_dvd h
        have h1 : 0 < (10 : ℕ) ^ K := pow_pos (by norm_num) K
        omega
      · exact one_dvd _
    · have hne : d ≠ 1 := by omega
      obtain ⟨p, hp, hpd⟩ := Nat.exists_prime_and_dvd hne
      have hK : K ≠ 0 := by
        rintro rfl
        have := Nat.le_of_dvd (by norm_num) h
        omega
      obtain ⟨K2, rfl⟩ : ∃ K2, K = K2 + 1 := ⟨K - 1, by omega⟩
      have hp10 : p ∣ 10 := hp.dvd_of_dvd_pow (hpd.trans h)
      obtain ⟨d2, rfl⟩ := hpd
      have hd2pos : 0 < d2 := by
        rcases Nat.eq_zero_or_pos d2 with h0 | h0
        · subst h0; simp at hd
        · exact h0
      have hppos : 0 < p := hp.pos
      have hsplit : p * ((10 / p) * 10 ^ K2) = 10 ^ (K2 + 1) := by
        rw [← mul_assoc, Nat.mul_div_cancel' hp10, pow_succ]
        ring
      have hdvd2 : d2 ∣ (10 / p) * 10 ^ K2 := by
        have h2 : p * d2 ∣ p * ((10 / p) * 10 ^ K2) := by rw [hsplit]; exact h
        exact (mul_dvd_mul_iff_left (by omega : p ≠ 0)).mp h2
      have hd2K : d2 ∣ 10 ^ (K2 + 1) := by
        refine hdvd2.trans ?_
        have hdp : (10 / p) ∣ 10 := Nat.div_dvd_of_dvd hp10
        have : (10 / p) * 10 ^ K2 ∣ 10 * 10 ^ K2 := Nat.mul_dvd_mul_right hdp _
        refine this.trans ?_
        rw [pow_succ]
        exact dvd_of_eq (by ring)
      have hd2lt : d2 < p * d2 := by nlinarith [hp.two_le]
      have ihd2 := ih d2 hd2lt (K2 + 1) hd2K
      have h1 : p * d2 ∣ 10 ^ (d2 + 1) := by
        have := mul_dvd_mul hp10 ihd2
        refine this.trans ?_
        rw [pow_succ]
        exact dvd_of_eq (by ring)
      refine h1.trans (pow_dvd_pow 10 ?_)
      nlinarith [hp.two_le]

/-- The searched fraction-digit count really works for denominators dividing
a power of ten. -/
theorem decExp_spec (d : ℕ) (hd : 0 < d) (h : ∃ K, d ∣ 10 ^ K) :
    d ∣ 10 ^ decExp d := by
  obtain ⟨K, hK⟩ := h
  have h2 : d ∣ 10 ^ d := dvd_ten_pow_self d K hK
  unfold decExp
  cases hf : (List.range (d + 1)).find? (fun k => 10 ^ k % d == 0) with
  | none =>
    exfalso
    have hmem : d ∈ List.range (d + 1) := by simp
    have := List.find?_eq_none.mp hf d hmem
    simp only [beq_iff_eq] at this
    exact this (Nat.eq_zero_of_dvd_of_lt h2 |> fun _ => by
      exact (Nat.mod_eq_zero_of_dvd h2))
  | some k =>
    have hp := List.find?_some hf
    simp only [beq_iff_eq] at hp
    exact Nat.dvd_of_mod_eq_zero hp

/-- takeWhile and dropWhile across an all-true run and a stopping element. -/
theorem takeDrop_append_stop {p : Char → Bool} (a b : List Char) (x : Char)
    (ha : ∀ c ∈ a, p c = true) (hx : p x = false) :
    (a ++ x :: b).takeWhile p = a ∧ (a ++ x :: b).dropWhile p = x :: b := by
  induction a with
  | nil =>
    constructor
    · simp [List.takeWhile_cons, hx]
    · simp [List.dropWhile_cons, hx]
  | cons c a2 ih =>
    have hc := ha c (List.mem_cons_self _ _)
    obtain ⟨h1, h2⟩ := ih (fun y hy => ha y (List.mem_cons_of_mem _ hy))
    constructor
    · simp only [List.cons_append, List.takeWhile_cons, hc, if_true]
      rw [h1]
    · simp only [List.cons_append, List.dropWhile_cons, hc, if_true]
      rw [h2]

/-- Number() on a non-empty all-digit token. -/
theorem jsNumber_all_digits (tok : List Char) (hd : ∀ c ∈ tok, c.isDigit = true)
    (hne : tok ≠ []) : jsNumberOfToken tok = some (mkRat (natVal tok) 1) := by
  unfold jsNumberOfToken
  rw [if_neg hne]
  have hall : tok.all isNumTokChar = true := List.all_eq_true.mpr (fun c hc => by
    unfold isNumTokChar
    rw [hd c hc]
    rfl)
  have hdot : tok.count '.' = 0 := by
    rw [List.count_eq_zero]
    intro hmem
    have := hd '.' hmem
    simp at this
  have hany : tok.any Char.isDigit = true := by
    cases tok with
    | nil => exact absurd rfl hne
    | cons c rest =>
      exact List.any_eq_true.mpr ⟨c, List.mem_cons_self _ _, hd c (List.mem_cons_self _ _)⟩
  rw [if_pos ⟨hall, by omega, hany⟩]
  have hnodot : tok.takeWhile (fun c => c ≠ '.') = tok := by
    rw [List.takeWhile_eq_self_iff]
    intro c hc
    have := hd c hc
    simp only [decide_eq_true_eq]
    intro hcc
    rw [hcc] at this
    simp at this
  have hnodot2 : tok.dropWhile (fun c => c ≠ '.') = [] := by
    rw [List.dropWhile_eq_nil_iff]
    intro c hc
    have := hd c hc
    simp only [decide_eq_true_eq]
    intro hcc
    rw [hcc] at this
    simp at this
  rw [hnodot, hnodot2]
  simp [natVal]

/-- Number() on digits, a dot, and fraction digits. -/
theorem jsNumber_dot (ip fp : List Char) (hip : ∀ c ∈ ip, c.isDigit = true)
    (hfp : ∀ c ∈ fp, c.isDigit = true) (hne : ip ≠ []) :
    jsNumberOfToken (ip ++ '.' :: fp) =
      some (mkRat (natVal ip * 10 ^ fp.length + natVal fp) (10 ^ fp.length)) := by
  unfold jsNumberOfToken
  have hne2 : ¬ ip ++ '.' :: fp = [] := by simp
  rw [if_neg hne2]
  have hall : (ip ++ '.' :: fp).all isNumTokChar = true := by
    rw [List.all_eq_true]
    intro c hc
    rcases List.mem_append.mp hc with h1 | h1
    · unfold isNumTokChar; rw [hip c h1]; rfl
    · rcases List.mem_cons.mp h1 with h2 | h2
      · subst h2; rfl
      · unfold isNumTokChar; rw [hfp c h2]; rfl
  have hdip : ip.count '.' = 0 := by
    rw [List.count_eq_zero]
    intro hmem
    have := hip '.' hmem
    simp at this
  have hdfp : fp.count '.' = 0 := by
    rw [List.count_eq_zero]
    intro hmem
    have := hfp '.' hmem
    simp at this
  have hdot : (ip ++ '.' :: fp).count '.' ≤ 1 := by
    rw [List.count_append, List.count_cons]
    simp [hdip, hdfp]
  have hany : (ip ++ '.' :: fp).any Char.isDigit = true := by
    rw [List.any_eq_true]
    cases ip with
    | nil => exact absurd rfl hne
    | cons c rest =>
      exact ⟨c, by simp, hip c (List.mem_cons_self _ _)⟩
  rw [if_pos ⟨hall, hdot, hany⟩]
  have hstop := takeDrop_append_stop (p := fun c => decide (c ≠ '.')) ip fp '.'
    (fun c hc => by
      simp only [decide_eq_true_eq]
      intro hcc
      have := hip c hc
      rw [hcc] at this
      simp at this)
    (by simp)
  rw [hstop.1, hstop.2]
  simp

/-- Values produced by Number() are nonnegative decimals. -/
theorem jsNumber_range (tok : List Char) (v : ℚ) (h : jsNumberOfToken tok = some v) :
    0 ≤ v ∧ ∃ K, (v.den : ℕ) ∣ 10 ^ K := by
  unfold jsNumberOfToken at h
  by_cases h1 : tok = []
  · rw [if_pos h1] at h
    have : (0 : ℚ) = v := Option.some.inj h
    rw [← this]
    exact ⟨le_refl 0, 0, by norm_num⟩
  · rw [if_neg h1] at h
    by_cases h2 : tok.all isNumTokChar = true ∧ tok.count '.' ≤ 1 ∧
        tok.any Char.isDigit = true
    · rw [if_pos h2] at h
      have hv := Option.some.inj h
      subst hv
      constructor
      · show (0 : ℚ) ≤ mkRat ((natVal (tok.takeWhile fun c => c ≠ '.') : ℤ) *
              10 ^ ((tok.dropWhile fun c => c ≠ '.').drop 1).length +
            (natVal ((tok.dropWhile fun c => c ≠ '.').drop 1) : ℤ))
            (10 ^ ((tok.dropWhile fun c => c ≠ '.').drop 1).length)
        rw [Rat.mkRat_eq_divInt]
        exact Rat.divInt_nonneg (by positivity) (by positivity)
      · refine ⟨((tok.dropWhile (fun c => c ≠ '.')).drop 1).length, ?_⟩
        show (mkRat ((natVal (tok.takeWhile fun c => c ≠ '.') : ℤ) *
              10 ^ ((tok.dropWhile fun c => c ≠ '.').drop 1).length +
            (natVal ((tok.dropWhile fun c => c ≠ '.').drop 1) : ℤ))
            (10 ^ ((tok.dropWhile fun c => c ≠ '.').drop 1).length)).den ∣
          10 ^ ((tok.dropWhile fun c => c ≠ '.').drop 1).length
        have hdvd := Rat.den_dvd
          ((natVal (tok.takeWhile fun c => c ≠ '.') : ℤ) *
              10 ^ ((tok.dropWhile fun c => c ≠ '.').drop 1).length +
            (natVal ((tok.dropWhile fun c => c ≠ '.').drop 1) : ℤ))
          (((10 ^ ((tok.dropWhile fun c => c ≠ '.').drop 1).length : ℕ)) : ℤ)
        rw [← Rat.mkRat_eq_divInt] at hdvd
        exact_mod_cast hdvd
    · rw [if_neg h2] at h
      cases h

/-- Length of the padded digit string. -/
theorem padDigits_length (k : ℕ) (ds : List Char) :
    (padDigits k ds).length = max ds.length (k + 1) := by
  unfold padDigits
  rw [List.length_append, List.length_replicate]
  omega

/-- The padded digit string consists of digits. -/
theorem padDigits_all_digits (k : ℕ) (ds : List Char)
    (h : ∀ c ∈ ds, c.isDigit = true) : ∀ c ∈ padDigits k ds, c.isDigit = true := by
  unfold padDigits
  intro c hc
  rcases List.mem_append.mp hc with h1 | h1
  · rw [List.eq_of_mem_replicate h1]; rfl
  · exact h c h1

/-- The value of the padded digit string. -/
theorem padDigits_natVal (k : ℕ) (n : ℕ) :
    natVal (padDigits k (natToDigits n)) = n := by
  unfold padDigits
  rw [natVal_replicate_zero, natVal_natToDigits]

/-- The decimal rendering parses back to the value for the nonnegative exact
decimals the tokenizer deals in. -/
theorem decStr_correct (q : ℚ) (hq : 0 ≤ q) (hden : ∃ K, (q.den : ℕ) ∣ 10 ^ K) :
    jsNumberOfToken (decStr q) = some q := by
  have hnum : (q.num.toNat : ℤ) = q.num := Int.toNat_of_nonneg (Rat.num_nonneg.mpr hq)
  by_cases hk0 : decExp q.den = 0
  · have hden1 : q.den = 1 := by
      have h2 := decExp_spec q.den q.den_pos hden
      rw [hk0] at h2
      simpa using h2
    unfold decStr
    rw [if_pos hk0,
      jsNumber_all_digits _ (natToDigits_all_digits _) (natToDigits_ne_nil _),
      natVal_natToDigits]
    congr 1
    rw [Rat.mkRat_one, hnum]
    conv_rhs => rw [← Rat.num_divInt_den q, hden1]
    norm_num
  · have hdvd : (q.den : ℕ) ∣ 10 ^ decExp q.den := decExp_spec q.den q.den_pos hden
    unfold decStr
    rw [if_neg hk0]
    have hLlen : (padDigits (decExp q.den)
        (natToDigits (q.num.toNat * 10 ^ decExp q.den / q.den))).length =
        max (natToDigits (q.num.toNat * 10 ^ decExp q.den / q.den)).length
          (decExp q.den + 1) := padDigits_length _ _
    have hpdall := padDigits_all_digits (decExp q.den)
      (natToDigits (q.num.toNat * 10 ^ decExp q.den / q.den))
      (natToDigits_all_digits _)
    unfold insertDot
    have htake_all : ∀ c ∈ (padDigits (decExp q.den)
        (natToDigits (q.num.toNat * 10 ^ decExp q.den / q.den))).take
          ((padDigits (decExp q.den)
            (natToDigits (q.num.toNat * 10 ^ decExp q.den / q.den))).length -
            decExp q.den),
        c.isDigit = true :=
      fun c hc => hpdall c (List.mem_of_mem_take hc)
    have hdrop_all : ∀ c ∈ (padDigits (decExp q.den)
        (natToDigits (q.num.toNat * 10 ^ decExp q.den / q.den))).drop
          ((padDigits (decExp q.den)
            (natToDigits (q.num.toNat * 10 ^ decExp q.den / q.den))).length -
            decExp q.den),
        c.isDigit = true :=
      fun c hc => hpdall c (List.mem_of_mem_drop hc)
    have htake_ne : (padDigits (decExp q.den)
        (natToDigits (q.num.toNat * 10 ^ decExp q.den / q.den))).take
          ((padDigits (decExp q.den)
            (natToDigits (q.num.toNat * 10 ^ decExp q.den / q.den))).length -
            decExp q.den) ≠ [] := by
      refine List.ne_nil_of_length_pos ?_
      rw [List.length_take]
      rw [hLlen]
      omega
    rw [jsNumber_dot _ _ htake_all hdrop_all htake_ne]
    congr 1
    have hdroplen : ((padDigits (decExp q.den)
        (natToDigits (q.num.toNat * 10 ^ decExp q.den / q.den))).drop
          ((padDigits (decExp q.den)
            (natToDigits (q.num.toNat * 10 ^ decExp q.den / q.den))).length -
            decExp q.den)).length = decExp q.den := by
      rw [List.length_drop, hLlen]
      omega
    have hjoin : natVal ((padDigits (decExp q.den)
          (natToDigits (q.num.toNat * 10 ^ decExp q.den / q.den))).take
            ((padDigits (decExp q.den)
              (natToDigits (q.num.toNat * 10 ^ decExp q.den / q.den))).length -
              decExp q.den)) *
          10 ^ ((padDigits (decExp q.den)
            (natToDigits (q.num.toNat * 10 ^ decExp q.den / q.den))).drop
              ((padDigits (decExp q.den)
                (natToDigits (q.num.toNat * 10 ^ decExp q.den / q.den))).length -
                decExp q.den)).length +
        natVal ((padDigits (decExp q.den)
          (natToDigits (q.num.toNat * 10 ^ decExp q.den / q.den))).drop
            ((padDigits (decExp q.den)
              (natToDigits (q.num.toNat * 10 ^ decExp q.den / q.den))).length -
              decExp q.den)) =
        q.num.toNat * 10 ^ decExp q.den / q.den := by
      rw [← natVal_append, List.take_append_drop, padDigits_natVal]
    rw [hdroplen] at hjoin
    rw [hdroplen]
    have ht : q.den * (10 ^ decExp q.den / q.den) = 10 ^ decExp q.den :=
      Nat.mul_div_cancel' hdvd
    have hm2 : q.num.toNat * 10 ^ decExp q.den / q.den =
        q.num.toNat * (10 ^ decExp q.den / q.den) := by
      conv_lhs => rw [← ht]
      rw [show q.num.toNat * (q.den * (10 ^ decExp q.den / q.den)) =
        q.den * (q.num.toNat * (10 ^ decExp q.den / q.den)) by ring]
      exact Nat.mul_div_cancel_left _ q.den_pos
    rw [Rat.mkRat_eq_divInt]
    conv_rhs => rw [← Rat.num_divInt_den q]
    rw [Rat.divInt_eq_iff (by positivity) (by exact_mod_cast q.den_pos.ne.symm)]
    have hZ : ((natVal ((padDigits (decExp q.den)
          (natToDigits (q.num.toNat * 10 ^ decExp q.den / q.den))).take
            ((padDigits (decExp q.den)
              (natToDigits (q.num.toNat * 10 ^ decExp q.den / q.den))).length -
              decExp q.den)) : ℤ) * 10 ^ decExp q.den +
        (natVal ((padDigits (decExp q.den)
          (natToDigits (q.num.toNat * 10 ^ decExp q.den / q.den))).drop
            ((padDigits (decExp q.den)
              (natToDigits (q.num.toNat * 10 ^ decExp q.den / q.den))).length -
              decExp q.den)) : ℤ)) =
        ((q.num.toNat * 10 ^ decExp q.den / q.den : ℕ) : ℤ) := by
      exact_mod_cast congrArg (fun n : ℕ => (n : ℤ)) hjoin
    rw [hZ, hm2]
    push_cast [hnum]
    rw [mul_assoc]
    congr 1
    exact Int.ediv_mul_cancel (by exact_mod_cast hdvd)

/-- The rendering consists of digits and dots only. -/
theorem decStr_all_numTok (q : ℚ) : ∀ c ∈ decStr q, isNumTokChar c = true := by
  unfold decStr
  by_cases hk0 : decExp q.den = 0
  · rw [if_pos hk0]
    intro c hc
    unfold isNumTokChar
    rw [natToDigits_all_digits _ c hc]
    rfl
  · rw [if_neg hk0]
    unfold insertDot
    intro c hc
    rcases List.mem_append.mp hc with h1 | h1
    · have h2 := padDigits_all_digits _ _ (natToDigits_all_digits _) c (List.mem_of_mem_take h1)
      unfold isNumTokChar
      rw [h2]
      rfl
    · rcases List.mem_cons.mp h1 with h2 | h2
      · subst h2; rfl
      · have h3 := padDigits_all_digits _ _ (natToDigits_all_digits _) c (List.mem_of_mem_drop h2)
        unfold isNumTokChar
        rw [h3]
        rfl

/-- The rendering is never empty. -/
theorem decStr_ne_nil (q : ℚ) : decStr q ≠ [] := by
  unfold decStr
  by_cases hk0 : decExp q.den = 0
  · rw [if_pos hk0]; exact natToDigits_ne_nil _
  · rw [if_neg hk0]; unfold insertDot; simp

/-- The rendering contains no space. -/
theorem decStr_no_space (q : ℚ) : ' ' ∉ decStr q := by
  intro h
  have h2 := decStr_all_numTok q ' ' h
  simp [isNumTokChar] at h2

/-- The amount stripping leaves the rendering unchanged. -/
theorem decStr_strip (q : ℚ) : stripNonAmountChars (decStr q) = decStr q := by
  unfold stripNonAmountChars
  rw [List.filter_eq_self]
  intro c hc
  have h2 := decStr_all_numTok q c hc
  unfold isNumTokChar at h2
  rcases Bool.or_eq_true_iff.mp h2 with h3 | h3
  · simp [h3]
  · simp [h3]

/-- The rendering contains a digit. -/
theorem decStr_any_digit (q : ℚ) : (decStr q).any Char.isDigit = true := by
  unfold decStr
  by_cases hk0 : decExp q.den = 0
  · rw [if_pos hk0]
    cases hne : natToDigits q.num.toNat with
    | nil => exact absurd hne (natToDigits_ne_nil _)
    | cons c rest2 =>
      rw [List.any_eq_true]
      exact ⟨c, by simp,
        natToDigits_all_digits _ c (by rw [hne]; exact List.mem_cons_self _ _)⟩
  · rw [if_neg hk0]
    unfold insertDot
    rw [List.any_eq_true]
    have hLlen := padDigits_length (decExp q.den)
      (natToDigits (q.num.toNat * 10 ^ decExp q.den / q.den))
    have hpos : 0 < ((padDigits (decExp q.den)
        (natToDigits (q.num.toNat * 10 ^ decExp q.den / q.den))).take
          ((padDigits (decExp q.den)
            (natToDigits (q.num.toNat * 10 ^ decExp q.den / q.den))).length -
            decExp q.den)).length := by
      rw [List.length_take, hLlen]
      omega
    obtain ⟨c, hc⟩ := List.exists_mem_of_length_pos hpos
    exact ⟨c, List.mem_append_left _ hc,
      padDigits_all_digits _ _ (natToDigits_all_digits _) c (List.mem_of_mem_take hc)⟩

/-- The character data of a literally built string. -/
theorem dataMk (s : List Char) : (⟨s⟩ : String).data = s := rfl

/-- Reconstruction of a name-only record. -/
theorem reconstructLine_name (s : List Char) :
    reconstructLine ⟨⟨s⟩, none, none, none⟩ = s := rfl

/-- Reconstruction of an amount-and-name record. -/
theorem reconstructLine_amount_name (q : ℚ) (s : List Char) :
    reconstructLine ⟨⟨s⟩, some q, none, none⟩ = decStr q ++ ' ' :: s := rfl

/-- Reconstruction of a full record. -/
theorem reconstructLine_full (q : ℚ) (u s : List Char) :
    reconstructLine ⟨⟨s⟩, some q, some ⟨u⟩, none⟩ =
      decStr q ++ ' ' :: (u ++ ' ' :: s) := rfl

/-! ## C8 -/

/-- C8 counterexample: for the line "2 &amp;amp; flour" the reconstructed
text retokenizes with a different unit, because entity decoding is applied
again and is not idempotent; so the tokenizer is not idempotent on its own
output as claimed. -/
theorem idempotence_counterexample :
    parseIngredientLine ⟨reconstructLine (parseIngredientLine "2 &amp;amp; flour")⟩ ≠
      parseIngredientLine "2 &amp;amp; flour" := by
  decide

/-- C8 amended: retokenizing the reconstructed text of a record yields the
same amount, unit and name, provided the reconstruction is left unchanged by
the input normalization (entity decoding and whitespace collapsing) - the
proviso the counterexample forces. -/
theorem tokenize_reconstruct_idempotent (raw : String)
    (hfix : normalizeLine (reconstructLine (parseIngredientLine raw)) =
      reconstructLine (parseIngredientLine raw)) :
    parseIngredientLine ⟨reconstructLine (parseIngredientLine raw)⟩ =
      parseIngredientLine raw := by
  by_cases htext : normalizeLine raw.data = []
  · have hrec : parseIngredientLine raw = ⟨"", none, none, none⟩ := by
      unfold parseIngredientLine
      rw [if_pos htext]
    rw [hrec]
    decide
  · obtain ⟨p0, rest, hsplit⟩ : ∃ p0 rest,
        splitOnSpace (normalizeLine raw.data) = p0 :: rest := by
      cases hs : splitOnSpace (normalizeLine raw.data) with
      | nil => exact absurd hs (splitOnSpace_ne_nil _)
      | cons a b => exact ⟨a, b, rfl⟩
    have hpieces := splitOnSpace_no_space (normalizeLine raw.data)
    rw [hsplit] at hpieces
    cases hnum : jsNumberOfToken (stripNonAmountChars p0) with
    | none =>
      have hrec : parseIngredientLine raw =
          ⟨⟨normalizeLine raw.data⟩, none, none, none⟩ := by
        unfold parseIngredientLine
        rw [if_neg htext, hsplit]
        dsimp only []
        rw [hnum]
      have hrecon : reconstructLine (parseIngredientLine raw) =
          normalizeLine raw.data := by
        rw [hrec]
        exact reconstructLine_name _
      rw [hrecon] at hfix
      rw [hrecon, hrec]
      unfold parseIngredientLine
      rw [dataMk]
      rw [hfix, if_neg htext, hsplit]
      dsimp only []
      rw [hnum]
    | some v =>
      cases hdig : (stripNonAmountChars p0).any Char.isDigit with
      | false =>
        have hrec : parseIngredientLine raw =
            ⟨⟨normalizeLine raw.data⟩, none, none, none⟩ := by
          unfold parseIngredientLine
          rw [if_neg htext, hsplit]
          dsimp only []
          rw [hnum, hdig]
        have hrecon : reconstructLine (parseIngredientLine raw) =
            normalizeLine raw.data := by
          rw [hrec]
          exact reconstructLine_name _
        rw [hrecon] at hfix
        rw [hrecon, hrec]
        unfold parseIngredientLine
        rw [dataMk]
        rw [hfix, if_neg htext, hsplit]
        dsimp only []
        rw [hnum, hdig]
      | true =>
        obtain ⟨hv0, hvden⟩ := jsNumber_range _ v hnum
        have hds := decStr_correct v hv0 hvden
        cases rest with
        | nil =>
          exfalso
          have hrec : parseIngredientLine raw =
              ⟨⟨joinSpace []⟩, some v, none, none⟩ := by
            unfold parseIngredientLine
            rw [if_neg htext, hsplit]
            dsimp only []
            rw [hnum, hdig]
          have hrecon : reconstructLine (parseIngredientLine raw) =
              decStr v ++ [' '] := by
            rw [hrec]
            exact reconstructLine_amount_name v (joinSpace [])
          rw [hrecon] at hfix
          have hlast : (decStr v ++ [' ']).getLast? = some ' ' :=
            List.getLast?_concat _
          have hws := normalizeLine_getLast_not_ws (decStr v ++ [' ']) ' '
            (by rw [hfix]; exact hlast)
          simp [isJsWs] at hws
        | cons p1 rest2 =>
          have hp1 : ' ' ∉ p1 :=
            hpieces p1 (List.mem_cons_of_mem _ (List.mem_cons_self _ _))
          cases rest2 with
          | nil =>
            have hrec : parseIngredientLine raw =
                ⟨⟨joinSpace [p1]⟩, some v, none, none⟩ := by
              unfold parseIngredientLine
              rw [if_neg htext, hsplit]
              dsimp only []
              rw [hnum, hdig]
            have hrecon : reconstructLine (parseIngredientLine raw) =
                decStr v ++ ' ' :: p1 := by
              rw [hrec]
              exact reconstructLine_amount_name v (joinSpace [p1])
            rw [hrecon] at hfix ⊢
            rw [hrec]
            have hne2 : ¬ (decStr v ++ ' ' :: p1) = [] := by simp
            have hsplit2 : splitOnSpace (decStr v ++ ' ' :: p1) = decStr v :: [p1] := by
              rw [splitOnSpace_append_space _ _ (decStr_no_space v),
                splitOnSpace_single p1 hp1]
            unfold parseIngredientLine
            rw [dataMk]
            rw [hfix, if_neg hne2, hsplit2]
            dsimp only []
            rw [decStr_strip, hds, decStr_any_digit]
          | cons p2 more =>
            have hmore : ∀ x ∈ p2 :: more, ' ' ∉ x := fun x hx =>
              hpieces x (List.mem_cons_of_mem _ (List.mem_cons_of_mem _ hx))
            have hrec : parseIngredientLine raw =
                ⟨⟨joinSpace (p2 :: more)⟩, some v, some ⟨p1⟩, none⟩ := by
              unfold parseIngredientLine
              rw [if_neg htext, hsplit]
              dsimp only []
              rw [hnum, hdig]
            have hrecon : reconstructLine (parseIngredientLine raw) =
                decStr v ++ ' ' :: (p1 ++ ' ' :: joinSpace (p2 :: more)) := by
              rw [hrec]
              exact reconstructLine_full v p1 (joinSpace (p2 :: more))
            rw [hrecon] at hfix ⊢
            rw [hrec]
            have hne2 : ¬ (decStr v ++ ' ' :: (p1 ++ ' ' :: joinSpace (p2 :: more))) = [] := by
              simp
            have hsplit2 : splitOnSpace
                (decStr v ++ ' ' :: (p1 ++ ' ' :: joinSpace (p2 :: more))) =
                decStr v :: p1 :: p2 :: more := by
              rw [splitOnSpace_append_space _ _ (decStr_no_space v),
                splitOnSpace_append_space _ _ hp1,
                splitOnSpace_joinSpace _ (by simp) hmore]
            unfold parseIngredientLine
            rw [dataMk]
            rw [hfix, if_neg hne2, hsplit2]
            dsimp only []
            rw [decStr_strip, hds, decStr_any_digit]

/-- C8 witness: the amended statement at "2 lbs ground beef". -/
theorem tokenize_reconstruct_idempotent_witness :
    parseIngredientLine ⟨reconstructLine (parseIngredientLine "2 lbs ground beef")⟩ =
      parseIngredientLine "2 lbs ground beef" :=
  tokenize_reconstruct_idempotent "2 lbs ground beef" (by decide)

/-- Appending preserves whitespace skipping when a non-blank character was
reached. -/
theorem skipWs_cons_append (s t : List Char) (c : Char) (r : List Char)
    (h : skipWs s = c :: r) : skipWs (s ++ t) = c :: (r ++ t) := by
  induction s with
  | nil => simp [skipWs] at h
  | cons a as ih =>
    unfold skipWs at h ih ⊢
    rw [List.cons_append]
    rw [List.dropWhile_cons] at h ⊢
    by_cases ha : isJsonWs a
    · rw [if_pos ha] at h ⊢
      exact ih h
    · rw [if_neg ha] at h ⊢
      rw [List.cons.injEq] at h
      rw [h.1, h.2]

/-- Appending after an all-blank prefix. -/
theorem skipWs_nil_append (s t : List Char) (h : skipWs s = []) :
    skipWs (s ++ t) = skipWs t := by
  induction s with
  | nil => simp
  | cons a as ih =>
    unfold skipWs at h ih ⊢
    rw [List.cons_append]
    rw [List.dropWhile_cons] at h ⊢
    by_cases ha : isJsonWs a
    · rw [if_pos ha] at h ⊢
      exact ih h
    · rw [if_neg ha] at h
      exact absurd h (by simp)

/-- A list whose whitespace skip is nonempty is nonempty. -/
theorem ne_nil_of_skipWs (s : List Char) (c : Char) (r : List Char)
    (h : skipWs s = c :: r) : s ≠ [] := by
  intro he
  rw [he] at h
  simp [skipWs] at h

/-- Splitting takeWhile and dropWhile over an append when the scan stops
inside the first part. -/
theorem takeDropWhile_append (p : Char → Bool) (l₁ l₂ : List Char)
    (h : l₁.dropWhile p ≠ []) :
    (l₁ ++ l₂).takeWhile p = l₁.takeWhile p ∧
    (l₁ ++ l₂).dropWhile p = l₁.dropWhile p ++ l₂ := by
  induction l₁ with
  | nil => simp at h
  | cons a as ih =>
    rw [List.dropWhile_cons] at h
    by_cases pa : p a
    · rw [if_pos pa] at h
      obtain ⟨h1, h2⟩ := ih h
      constructor
      · rw [List.cons_append, List.takeWhile_cons, List.takeWhile_cons,
          if_pos pa, if_pos pa, h1]
      · rw [List.cons_append, List.dropWhile_cons, List.dropWhile_cons,
          if_pos pa, if_pos pa, h2]
    · constructor
      · rw [List.cons_append, List.takeWhile_cons, List.takeWhile_cons,
          if_neg pa, if_neg pa]
      · rw [List.cons_append, List.dropWhile_cons, List.dropWhile_cons,
          if_neg pa, if_neg pa, List.cons_append]

/-- A prefix of a list is a prefix of any extension. -/
theorem isPrefixOf_append_of (l s t : List Char) (h : l.isPrefixOf s = true) :
    l.isPrefixOf (s ++ t) = true := by
  rw [List.isPrefixOf_iff_prefix] at h ⊢
  exact h.trans (List.prefix_append s t)

/-- A prefix is no longer than the list. -/
theorem length_le_of_isPrefixOf (l s : List Char) (h : l.isPrefixOf s = true) :
    l.length ≤ s.length :=
  (List.isPrefixOf_iff_prefix.mp h).length_le

/-- Dropping inside the first part of an append. -/
theorem drop_append_of_le (n : ℕ) (s t : List Char) (h : n ≤ s.length) :
    (s ++ t).drop n = s.drop n ++ t := by
  rw [List.drop_append_eq_append_drop, Nat.sub_eq_zero_of_le h, List.drop_zero]

/-- A literal keyword does not start at a differing head character. -/
theorem isPrefixOf_cons_ne (a : Char) (as : List Char) (c : Char) (l : List Char)
    (h : c ≠ a) : (a :: as).isPrefixOf (c :: l) = false := by
  simp [List.isPrefixOf]
  intro he
  exact absurd he.symm h

/-- String-body parsing is stable under appending input after the closing
quote. -/
theorem parseStrBody_append (t : List Char) :
    ∀ n s k r, s.length ≤ n → parseStrBody s = some (k, r) →
      parseStrBody (s ++ t) = some (k, r ++ t) := by
  intro n
  induction n with
  | zero =>
    intro s k r hlen h
    have hs : s = [] := List.eq_nil_of_length_eq_zero (Nat.le_zero.mp hlen)
    rw [hs] at h
    exact absurd h (by simp [parseStrBody])
  | succ n ih =>
    intro s k r hlen h
    cases s with
    | nil => exact absurd h (by simp [parseStrBody])
    | cons c rest =>
      rw [List.cons_append]
      unfold parseStrBody at h ⊢
      by_cases hq : c = '\"'
      · rw [if_pos hq] at h ⊢
        simp only [Option.some.injEq, Prod.mk.injEq] at h
        obtain ⟨rfl, rfl⟩ := h
        rfl
      · rw [if_neg hq] at h ⊢
        by_cases hb : c = '\\'
        · rw [if_pos hb] at h ⊢
          cases rest with
          | nil => exact absurd h (by simp)
          | cons e rest2 =>
            rw [List.cons_append]
            dsimp only [] at h ⊢
            by_cases hu : e = 'u'
            · rw [if_pos hu] at h ⊢
              cases rest2 with
              | nil => exact absurd h (by simp)
              | cons x1 r1 =>
                cases r1 with
                | nil => exact absurd h (by simp)
                | cons x2 r2 =>
                  cases r2 with
                  | nil => exact absurd h (by simp)
                  | cons x3 r3 =>
                    cases r3 with
                    | nil => exact absurd h (by simp)
                    | cons x4 rest3 =>
                      rw [List.cons_append, List.cons_append, List.cons_append,
                        List.cons_append]
                      dsimp only [] at h ⊢
                      cases hh1 : hexVal x1 with
                      | none =>
                        rw [hh1] at h
                        dsimp only [] at h
                        exact absurd h (by simp)
                      | some a =>
                        rw [hh1] at h
                        cases hh2 : hexVal x2 with
                        | none =>
                          rw [hh2] at h
                          dsimp only [] at h
                          exact absurd h (by simp)
                        | some b =>
                          rw [hh2] at h
                          cases hh3 : hexVal x3 with
                          | none =>
                            rw [hh3] at h
                            dsimp only [] at h
                            exact absurd h (by simp)
                          | some c2 =>
                            rw [hh3] at h
                            cases hh4 : hexVal x4 with
                            | none =>
                              rw [hh4] at h
                              dsimp only [] at h
                              exact absurd h (by simp)
                            | some d =>
                              rw [hh4] at h
                              dsimp only [] at h ⊢
                              cases hp : parseStrBody rest3 with
                              | none => rw [hp] at h; exact absurd h (by simp)
                              | some p =>
                                rw [hp] at h
                                obtain ⟨k2, r2⟩ := p
                                simp only [Option.map_some', Option.some.injEq,
                                  Prod.mk.injEq] at h
                                obtain ⟨rfl, rfl⟩ := h
                                have hlen3 : rest3.length ≤ n := by
                                  simp only [List.length_cons] at hlen
                                  omega
                                rw [ih rest3 k2 r2 hlen3 hp]
                                simp only [Option.map_some']
            · rw [if_neg hu] at h ⊢
              cases he : escChar e with
              | none =>
                rw [he] at h
                dsimp only [] at h
                exact absurd h (by simp)
              | some ec =>
                rw [he] at h
                dsimp only [] at h ⊢
                cases hp : parseStrBody rest2 with
                | none => rw [hp] at h; exact absurd h (by simp)
                | some p =>
                  rw [hp] at h
                  obtain ⟨k2, r2⟩ := p
                  simp only [Option.map_some', Option.some.injEq,
                    Prod.mk.injEq] at h
                  obtain ⟨rfl, rfl⟩ := h
                  have hlen2 : rest2.length ≤ n := by
                    simp only [List.length_cons] at hlen
                    omega
                  rw [ih rest2 k2 r2 hlen2 hp]
                  simp only [Option.map_some']
        · rw [if_neg hb] at h ⊢
          by_cases hctl : c.toNat < 32
          · rw [if_pos hctl] at h
            exact absurd h (by simp)
          · rw [if_neg hctl] at h ⊢
            cases hp : parseStrBody rest with
            | none => rw [hp] at h; exact absurd h (by simp)
            | some p =>
              rw [hp] at h
              obtain ⟨k2, r2⟩ := p
              simp only [Option.map_some', Option.some.injEq, Prod.mk.injEq] at h
              obtain ⟨rfl, rfl⟩ := h
              have hlen2 : rest.length ≤ n := by
                simp only [List.length_cons] at hlen
                omega
              rw [ih rest k2 r2 hlen2 hp]
              simp only [Option.map_some']

/-- The sign scan falls through on any other head character. -/
theorem numSign_cons_ne (c : Char) (r : List Char) (hc : c ≠ '-') :
    numSign (c :: r) = (false, c :: r) := by
  unfold numSign
  split
  · rename_i r2 heq
    rw [List.cons.injEq] at heq
    exact absurd heq.1 hc
  · rfl

/-- The exponent sign scan falls through on any other head character. -/
theorem expSign_cons_ne (d : Char) (rr : List Char) (h1 : d ≠ '+') (h2 : d ≠ '-') :
    expSign (d :: rr) = (false, d :: rr) := by
  unfold expSign
  split
  · rename_i r2 heq
    rw [List.cons.injEq] at heq
    exact absurd heq.1 h1
  · rename_i r2 heq
    rw [List.cons.injEq] at heq
    exact absurd heq.1 h2
  · rfl

/-- Fraction parsing at a dot. -/
theorem parseFracPart_dot (rest : List Char) :
    parseFracPart ('.' :: rest) =
      if rest.takeWhile Char.isDigit = [] then none
      else some (rest.takeWhile Char.isDigit, rest.dropWhile Char.isDigit) := rfl

/-- Fraction parsing falls through without a dot. -/
theorem parseFracPart_cons_ne (c : Char) (rest : List Char) (hc : c ≠ '.') :
    parseFracPart (c :: rest) = some ([], c :: rest) := by
  unfold parseFracPart
  split
  · rename_i r2 heq
    rw [List.cons.injEq] at heq
    exact absurd heq.1 hc
  · rfl

/-- Exponent parsing falls through without an exponent marker. -/
theorem parseExpPart_cons_ne (c : Char) (r : List Char) (hc : ¬(c = 'e' ∨ c = 'E')) :
    parseExpPart (c :: r) = some (0, c :: r) := by
  unfold parseExpPart
  dsimp only []
  rw [if_neg hc]

/-- The exponent sign scan over an appended input. -/
theorem expSign_append (r t : List Char) (hne : r ≠ []) :
    expSign (r ++ t) = ((expSign r).1, (expSign r).2 ++ t) := by
  cases r with
  | nil => exact absurd rfl hne
  | cons d rr =>
    rw [List.cons_append]
    by_cases h1 : d = '+'
    · subst h1
      rfl
    · by_cases h2 : d = '-'
      · subst h2
        rfl
      · rw [expSign_cons_ne d (rr ++ t) h1 h2, expSign_cons_ne d rr h1 h2]
        rfl

/-- The number sign scan over an appended input. -/
theorem numSign_append (s t : List Char) (hne : s ≠ []) :
    numSign (s ++ t) = ((numSign s).1, (numSign s).2 ++ t) := by
  cases s with
  | nil => exact absurd rfl hne
  | cons c rest =>
    rw [List.cons_append]
    by_cases hc : c = '-'
    · subst hc
      rfl
    · rw [numSign_cons_ne c (rest ++ t) hc, numSign_cons_ne c rest hc]
      rfl

/-- Fraction parsing is stable under appending when it did not consume its
whole input. -/
theorem parseFracPart_append (s t f r : List Char)
    (h : parseFracPart s = some (f, r)) (hr : r ≠ []) :
    parseFracPart (s ++ t) = some (f, r ++ t) := by
  cases s with
  | nil =>
    rw [show parseFracPart [] = some (([] : List Char), ([] : List Char)) from rfl] at h
    simp only [Option.some.injEq, Prod.mk.injEq] at h
    exact absurd h.2.symm hr
  | cons c rest =>
    by_cases hc : c = '.'
    · subst hc
      rw [List.cons_append]
      rw [parseFracPart_dot rest] at h
      rw [parseFracPart_dot (rest ++ t)]
      by_cases hds : rest.takeWhile Char.isDigit = []
      · rw [if_pos hds] at h
        exact absurd h (by simp)
      · rw [if_neg hds] at h
        simp only [Option.some.injEq, Prod.mk.injEq] at h
        obtain ⟨hf, hrr⟩ := h
        obtain ⟨ht, hd⟩ := takeDropWhile_append Char.isDigit rest t
          (by rw [hrr]; exact hr)
        rw [ht, hd, if_neg hds, hf, hrr]
    · rw [parseFracPart_cons_ne c rest hc] at h
      simp only [Option.some.injEq, Prod.mk.injEq] at h
      obtain ⟨hf, hrr⟩ := h
      subst hf
      subst hrr
      rw [List.cons_append, parseFracPart_cons_ne c (rest ++ t) hc]

/-- Exponent parsing is stable under appending when it did not consume its
whole input. -/
theorem parseExpPart_append (s t : List Char) (e : ℤ) (r : List Char)
    (h : parseExpPart s = some (e, r)) (hr : r ≠ []) :
    parseExpPart (s ++ t) = some (e, r ++ t) := by
  cases s with
  | nil =>
    rw [show parseExpPart [] = some ((0 : ℤ), ([] : List Char)) from rfl] at h
    simp only [Option.some.injEq, Prod.mk.injEq] at h
    exact absurd h.2.symm hr
  | cons c rest =>
    rw [List.cons_append]
    unfold parseExpPart at h ⊢
    dsimp only [] at h ⊢
    by_cases hc : c = 'e' ∨ c = 'E'
    · rw [if_pos hc] at h ⊢
      cases rest with
      | nil =>
        rw [show expSign ([] : List Char) = (false, []) from rfl] at h
        simp at h
      | cons d rr =>
        rw [expSign_append (d :: rr) t (by simp)]
        by_cases hds : (expSign (d :: rr)).2.takeWhile Char.isDigit = []
        · rw [if_pos hds] at h
          exact absurd h (by simp)
        · rw [if_neg hds] at h
          simp only [Option.some.injEq, Prod.mk.injEq] at h
          obtain ⟨hv, hrr2⟩ := h
          obtain ⟨ht, hd2⟩ := takeDropWhile_append Char.isDigit (expSign (d :: rr)).2 t
            (by rw [hrr2]; exact hr)
          rw [ht, hd2, if_neg hds, hv, hrr2]
    · rw [if_neg hc] at h ⊢
      simp only [Option.some.injEq, Prod.mk.injEq] at h
      obtain ⟨hv, hrr⟩ := h
      subst hv
      subst hrr
      rfl

/-- A number parse only starts at a minus sign or a digit. -/
theorem parseNum_some_head (c : Char) (r : List Char) (p : ℚ × List Char)
    (h : parseNum (c :: r) = some p) : c = '-' ∨ c.isDigit = true := by
  by_cases hc : c = '-'
  · exact Or.inl hc
  · right
    unfold parseNum at h
    rw [numSign_cons_ne c r hc] at h
    by_cases h0 : c = '0'
    · subst h0
      decide
    · by_cases hd : c.isDigit
      · exact hd
      · unfold parseNumCore at h
        dsimp only [] at h
        rw [if_neg h0, if_neg hd] at h
        dsimp only [] at h
        exact absurd h (by simp)

/-- Number-core parsing is stable under appending when it did not consume its
whole input. -/
theorem parseNumCore_append (neg : Bool) (s t : List Char) (q : ℚ) (r : List Char)
    (h : parseNumCore neg s = some (q, r)) (hr : r ≠ []) :
    parseNumCore neg (s ++ t) = some (q, r ++ t) := by
  cases s with
  | nil =>
    rw [show parseNumCore neg [] = none from rfl] at h
    exact absurd h (by simp)
  | cons c rest =>
    rw [List.cons_append]
    unfold parseNumCore at h ⊢
    dsimp only [] at h ⊢
    by_cases h0 : c = '0'
    · rw [if_pos h0] at h ⊢
      dsimp only [] at h ⊢
      cases hfp : parseFracPart rest with
      | none =>
        rw [hfp] at h
        exact absurd h (by simp)
      | some p =>
        rw [hfp] at h
        obtain ⟨f, r2⟩ := p
        dsimp only [] at h
        cases hep : parseExpPart r2 with
        | none =>
          rw [hep] at h
          exact absurd h (by simp)
        | some p2 =>
          rw [hep] at h
          obtain ⟨ev, r3⟩ := p2
          dsimp only [] at h
          simp only [Option.some.injEq, Prod.mk.injEq] at h
          obtain ⟨hq, hr3⟩ := h
          have hr3ne : r3 ≠ [] := by rw [hr3]; exact hr
          have hr2ne : r2 ≠ [] := by
            intro he2
            rw [he2] at hep
            rw [show parseExpPart ([] : List Char) =
              some ((0 : ℤ), ([] : List Char)) from rfl] at hep
            simp only [Option.some.injEq, Prod.mk.injEq] at hep
            exact hr3ne hep.2.symm
          rw [parseFracPart_append rest t f r2 hfp hr2ne]
          dsimp only []
          rw [parseExpPart_append r2 t ev r3 hep hr3ne]
          dsimp only []
          rw [hq, hr3]
    · rw [if_neg h0] at h ⊢
      by_cases hdg : c.isDigit
      · rw [if_pos hdg] at h ⊢
        dsimp only [] at h ⊢
        cases hfp : parseFracPart ((c :: rest).dropWhile Char.isDigit) with
        | none =>
          rw [hfp] at h
          exact absurd h (by simp)
        | some p =>
          rw [hfp] at h
          obtain ⟨f, r2⟩ := p
          dsimp only [] at h
          cases hep : parseExpPart r2 with
          | none =>
            rw [hep] at h
            exact absurd h (by simp)
          | some p2 =>
            rw [hep] at h
            obtain ⟨ev, r3⟩ := p2
            dsimp only [] at h
            simp only [Option.some.injEq, Prod.mk.injEq] at h
            obtain ⟨hq, hr3⟩ := h
            have hr3ne : r3 ≠ [] := by rw [hr3]; exact hr
            have hr2ne : r2 ≠ [] := by
              intro he2
              rw [he2] at hep
              rw [show parseExpPart ([] : List Char) =
                some ((0 : ℤ), ([] : List Char)) from rfl] at hep
              simp only [Option.some.injEq, Prod.mk.injEq] at hep
              exact hr3ne hep.2.symm
            have hr1ne : (c :: rest).dropWhile Char.isDigit ≠ [] := by
              intro he2
              rw [he2] at hfp
              rw [show parseFracPart [] =
                some (([] : List Char), ([] : List Char)) from rfl] at hfp
              simp only [Option.some.injEq, Prod.mk.injEq] at hfp
              exact hr2ne hfp.2.symm
            obtain ⟨htk, hdp⟩ := takeDropWhile_append Char.isDigit (c :: rest) t hr1ne
            rw [← List.cons_append, htk, hdp]
            rw [parseFracPart_append _ t f r2 hfp hr2ne]
            dsimp only []
            rw [parseExpPart_append r2 t ev r3 hep hr3ne]
            dsimp only []
            rw [hq, hr3]
      · rw [if_neg hdg] at h
        dsimp only [] at h
        exact absurd h (by simp)

/-- Number parsing is stable under appending when it did not consume its
whole input. -/
theorem parseNum_append (s t : List Char) (q : ℚ) (r : List Char)
    (h : parseNum s = some (q, r)) (hr : r ≠ []) :
    parseNum (s ++ t) = some (q, r ++ t) := by
  cases s with
  | nil =>
    rw [show parseNum [] = none from rfl] at h
    exact absurd h (by simp)
  | cons c rest =>
    unfold parseNum at h ⊢
    rw [numSign_append (c :: rest) t (by simp)]
    exact parseNumCore_append _ _ t q r h hr

/-- The head characters of a matched keyword agree. -/
theorem head_eq_of_isPrefixOf (a : Char) (as : List Char) (c : Char) (l : List Char)
    (h : (a :: as).isPrefixOf (c :: l) = true) : c = a := by
  have h2 : (a == c && as.isPrefixOf l) = true := h
  have h3 := (Bool.and_eq_true _ _).mp h2
  exact (beq_iff_eq.mp h3.1).symm

/-- A keyword check fails on a differing head character, as a negation. -/
theorem isPrefixOf_cons_not (a : Char) (as : List Char) (c : Char) (l : List Char)
    (h : c ≠ a) : ¬ ((a :: as).isPrefixOf (c :: l) = true) := by
  rw [isPrefixOf_cons_ne a as c l h]
  simp

/-- Keyword check failure for a string literal keyword. -/
theorem stringPrefix_not (w : String) (a : Char) (as : List Char)
    (hw : w.data = a :: as) (c : Char) (l : List Char) (h : c ≠ a) :
    ¬ ((w.data).isPrefixOf (c :: l) = true) := by
  rw [hw]
  exact isPrefixOf_cons_not a as c l h

/-- Head extraction for a string literal keyword check. -/
theorem stringPrefix_head (w : String) (a : Char) (as : List Char)
    (hw : w.data = a :: as) (c : Char) (l : List Char)
    (h : (w.data).isPrefixOf (c :: l) = true) : c = a := by
  rw [hw] at h
  exact head_eq_of_isPrefixOf a as c l h

/-- Joint fuel monotonicity and input-extension stability of the three mutual
JSON parsers: a successful parse at some fuel also succeeds at any larger fuel
and on any extended input, consuming the same characters - except that a
top-level number that consumed the whole input could be extended, which the
guard on parseVal excludes. -/
theorem parseAppendAux : ∀ g g' : ℕ, g ≤ g' →
    ((∀ s t v rv, parseVal g s = some (v, rv) →
        (rv = [] → ∀ q, v ≠ Json.num q) →
        parseVal g' (s ++ t) = some (v, rv ++ t)) ∧
     (∀ s t fl rv, parseFields g s = some (fl, rv) →
        parseFields g' (s ++ t) = some (fl, rv ++ t)) ∧
     (∀ s t l rv, parseItems g s = some (l, rv) →
        parseItems g' (s ++ t) = some (l, rv ++ t))) := by
  intro g
  induction g with
  | zero =>
    intro g' hle
    refine ⟨?_, ?_, ?_⟩
    · intro s t v rv h hg
      rw [show parseVal 0 s = none from rfl] at h
      exact absurd h (by simp)
    · intro s t fl rv h
      rw [show parseFields 0 s = none from rfl] at h
      exact absurd h (by simp)
    · intro s t l rv h
      rw [show parseItems 0 s = none from rfl] at h
      exact absurd h (by simp)
  | succ g ih =>
    intro g' hle
    obtain ⟨g2, rfl⟩ : ∃ g2, g' = g2 + 1 := ⟨g' - 1, by omega⟩
    have hg2 : g ≤ g2 := by omega
    obtain ⟨ihV, ihF, ihI⟩ := ih g2 hg2
    refine ⟨?_, ?_, ?_⟩
    · -- parseVal
      intro s t v rv h hg
      unfold parseVal at h ⊢
      cases hskip : skipWs s with
      | nil =>
        rw [hskip] at h
        exact absurd h (by simp)
      | cons c r0 =>
        rw [hskip] at h
        rw [skipWs_cons_append s t c r0 hskip]
        dsimp only [] at h ⊢
        by_cases hc1 : c = lbrace
        · rw [if_pos hc1] at h ⊢
          cases hskip2 : skipWs r0 with
          | nil =>
            rw [hskip2] at h
            exact absurd h (by simp)
          | cons d r2 =>
            rw [hskip2] at h
            rw [skipWs_cons_append r0 t d r2 hskip2]
            dsimp only [] at h ⊢
            by_cases hd : d = rbrace
            · rw [if_pos hd] at h ⊢
              simp only [Option.some.injEq, Prod.mk.injEq] at h
              obtain ⟨hv, hr⟩ := h
              subst hv
              subst hr
              rfl
            · rw [if_neg hd] at h ⊢
              cases hpf : parseFields g r0 with
              | none =>
                rw [hpf] at h
                exact absurd h (by simp)
              | some p =>
                rw [hpf] at h
                obtain ⟨fl2, r3⟩ := p
                simp only [Option.map_some', Option.some.injEq, Prod.mk.injEq] at h
                obtain ⟨hv, hr⟩ := h
                rw [ihF r0 t fl2 r3 hpf]
                simp only [Option.map_some', Option.some.injEq, Prod.mk.injEq]
                exact ⟨hv, by rw [hr]⟩
        · rw [if_neg hc1] at h ⊢
          by_cases hc2 : c = '['
          · rw [if_pos hc2] at h ⊢
            cases hskip2 : skipWs r0 with
            | nil =>
              rw [hskip2] at h
              exact absurd h (by simp)
            | cons d r2 =>
              rw [hskip2] at h
              rw [skipWs_cons_append r0 t d r2 hskip2]
              dsimp only [] at h ⊢
              by_cases hd : d = ']'
              · rw [if_pos hd] at h ⊢
                simp only [Option.some.injEq, Prod.mk.injEq] at h
                obtain ⟨hv, hr⟩ := h
                subst hv
                subst hr
                rfl
              · rw [if_neg hd] at h ⊢
                cases hpi : parseItems g r0 with
                | none =>
                  rw [hpi] at h
                  exact absurd h (by simp)
                | some p =>
                  rw [hpi] at h
                  obtain ⟨l2, r3⟩ := p
                  simp only [Option.map_some', Option.some.injEq, Prod.mk.injEq] at h
                  obtain ⟨hv, hr⟩ := h
                  rw [ihI r0 t l2 r3 hpi]
                  simp only [Option.map_some', Option.some.injEq, Prod.mk.injEq]
                  exact ⟨hv, by rw [hr]⟩
          · rw [if_neg hc2] at h ⊢
            by_cases hc3 : c = '\"'
            · rw [if_pos hc3] at h ⊢
              cases hps : parseStrBody r0 with
              | none =>
                rw [hps] at h
                exact absurd h (by simp)
              | some p =>
                rw [hps] at h
                obtain ⟨k2, r3⟩ := p
                simp only [Option.map_some', Option.some.injEq, Prod.mk.injEq] at h
                obtain ⟨hv, hr⟩ := h
                rw [parseStrBody_append t r0.length r0 k2 r3 le_rfl hps]
                simp only [Option.map_some', Option.some.injEq, Prod.mk.injEq]
                exact ⟨hv, by rw [hr]⟩
            · rw [if_neg hc3] at h ⊢
              by_cases hp4 : ("true".data).isPrefixOf (c :: r0) = true
              · rw [if_pos hp4] at h
                rw [show c :: (r0 ++ t) = (c :: r0) ++ t from rfl]
                rw [if_pos (isPrefixOf_append_of _ _ t hp4)]
                have hlen4 : 4 ≤ (c :: r0).length := by
                  have h5 := length_le_of_isPrefixOf _ _ hp4
                  simpa using h5
                rw [drop_append_of_le 4 (c :: r0) t hlen4]
                simp only [Option.some.injEq, Prod.mk.injEq] at h
                obtain ⟨hv, hr⟩ := h
                subst hv
                subst hr
                rfl
              · rw [if_neg hp4] at h
                by_cases hp5 : ("false".data).isPrefixOf (c :: r0) = true
                · rw [if_pos hp5] at h
                  have hcf : c = 'f' := stringPrefix_head "false" 'f' _ rfl c r0 hp5
                  rw [if_neg (stringPrefix_not "true" 't' _ rfl c _
                    (by rw [hcf]; decide))]
                  rw [show c :: (r0 ++ t) = (c :: r0) ++ t from rfl]
                  rw [if_pos (isPrefixOf_append_of _ _ t hp5)]
                  have hlen5 : 5 ≤ (c :: r0).length := by
                    have h5 := length_le_of_isPrefixOf _ _ hp5
                    simpa using h5
                  rw [drop_append_of_le 5 (c :: r0) t hlen5]
                  simp only [Option.some.injEq, Prod.mk.injEq] at h
                  obtain ⟨hv, hr⟩ := h
                  subst hv
                  subst hr
                  rfl
                · rw [if_neg hp5] at h
                  by_cases hp6 : ("null".data).isPrefixOf (c :: r0) = true
                  · rw [if_pos hp6] at h
                    have hcn : c = 'n' := stringPrefix_head "null" 'n' _ rfl c r0 hp6
                    rw [if_neg (stringPrefix_not "true" 't' _ rfl c _
                      (by rw [hcn]; decide))]
                    rw [if_neg (stringPrefix_not "false" 'f' _ rfl c _
                      (by rw [hcn]; decide))]
                    rw [show c :: (r0 ++ t) = (c :: r0) ++ t from rfl]
                    rw [if_pos (isPrefixOf_append_of _ _ t hp6)]
                    have hlen6 : 4 ≤ (c :: r0).length := by
                      have h5 := length_le_of_isPrefixOf _ _ hp6
                      simpa using h5
                    rw [drop_append_of_le 4 (c :: r0) t hlen6]
                    simp only [Option.some.injEq, Prod.mk.injEq] at h
                    obtain ⟨hv, hr⟩ := h
                    subst hv
                    subst hr
                    rfl
                  · rw [if_neg hp6] at h
                    cases hpn : parseNum (c :: r0) with
                    | none =>
                      rw [hpn] at h
                      exact absurd h (by simp)
                    | some p =>
                      rw [hpn] at h
                      obtain ⟨qv, r3⟩ := p
                      simp only [Option.map_some', Option.some.injEq,
                        Prod.mk.injEq] at h
                      obtain ⟨hv, hr⟩ := h
                      have hr3ne : r3 ≠ [] := by
                        intro he3
                        have hrv : rv = [] := by rw [← hr, he3]
                        exact hg hrv qv hv.symm
                      have hch := parseNum_some_head c r0 _ hpn
                      have hne3 : c ≠ 't' ∧ c ≠ 'f' ∧ c ≠ 'n' := by
                        rcases hch with h1 | h1
                        · subst h1
                          exact ⟨by decide, by decide, by decide⟩
                        · refine ⟨?_, ?_, ?_⟩ <;> intro he <;> rw [he] at h1 <;>
                            exact absurd h1 (by decide)
                      rw [if_neg (stringPrefix_not "true" 't' _ rfl c _ hne3.1)]
                      rw [if_neg (stringPrefix_not "false" 'f' _ rfl c _ hne3.2.1)]
                      rw [if_neg (stringPrefix_not "null" 'n' _ rfl c _ hne3.2.2)]
                      rw [show c :: (r0 ++ t) = (c :: r0) ++ t from rfl]
                      rw [parseNum_append (c :: r0) t qv r3 hpn hr3ne]
                      simp only [Option.map_some', Option.some.injEq, Prod.mk.injEq]
                      exact ⟨hv, by rw [hr]⟩
    · -- parseFields
      intro s t fl rv h
      unfold parseFields at h ⊢
      cases hskip : skipWs s with
      | nil =>
        rw [hskip] at h
        exact absurd h (by simp)
      | cons c0 r =>
        rw [hskip] at h
        rw [skipWs_cons_append s t c0 r hskip]
        dsimp only [] at h ⊢
        by_cases hq : c0 = '\"'
        · rw [if_pos hq] at h ⊢
          cases hps : parseStrBody r with
          | none =>
            rw [hps] at h
            exact absurd h (by simp)
          | some p =>
            rw [hps] at h
            obtain ⟨k, r1⟩ := p
            dsimp only [] at h
            rw [parseStrBody_append t r.length r k r1 le_rfl hps]
            dsimp only []
            cases hskip1 : skipWs r1 with
            | nil =>
              rw [hskip1] at h
              exact absurd h (by simp)
            | cons c1 r2 =>
              rw [hskip1] at h
              rw [skipWs_cons_append r1 t c1 r2 hskip1]
              dsimp only [] at h ⊢
              by_cases hcol : c1 = ':'
              · rw [if_pos hcol] at h ⊢
                cases hpv : parseVal g r2 with
                | none =>
                  rw [hpv] at h
                  exact absurd h (by simp)
                | some p2 =>
                  rw [hpv] at h
                  obtain ⟨v, r3⟩ := p2
                  dsimp only [] at h
                  cases hskip3 : skipWs r3 with
                  | nil =>
                    rw [hskip3] at h
                    exact absurd h (by simp)
                  | cons c r4 =>
                    rw [hskip3] at h
                    dsimp only [] at h
                    have hr3ne : r3 ≠ [] := ne_nil_of_skipWs r3 c r4 hskip3
                    rw [ihV r2 t v r3 hpv (fun he => absurd he hr3ne)]
                    dsimp only []
                    rw [skipWs_cons_append r3 t c r4 hskip3]
                    dsimp only []
                    by_cases hrb : c = rbrace
                    · rw [if_pos hrb] at h ⊢
                      simp only [Option.some.injEq, Prod.mk.injEq] at h
                      obtain ⟨h1, h2⟩ := h
                      subst h1
                      subst h2
                      rfl
                    · rw [if_neg hrb] at h ⊢
                      by_cases hcm : c = ','
                      · rw [if_pos hcm] at h ⊢
                        cases hpf : parseFields g r4 with
                        | none =>
                          rw [hpf] at h
                          exact absurd h (by simp)
                        | some p3 =>
                          rw [hpf] at h
                          obtain ⟨fl2, r5⟩ := p3
                          simp only [Option.map_some', Option.some.injEq,
                            Prod.mk.injEq] at h
                          obtain ⟨h1, h2⟩ := h
                          rw [ihF r4 t fl2 r5 hpf]
                          simp only [Option.map_some', Option.some.injEq,
                            Prod.mk.injEq]
                          exact ⟨h1, by rw [h2]⟩
                      · rw [if_neg hcm] at h
                        exact absurd h (by simp)
              · rw [if_neg hcol] at h
                exact absurd h (by simp)
        · rw [if_neg hq] at h
          exact absurd h (by simp)
    · -- parseItems
      intro s t l rv h
      unfold parseItems at h ⊢
      cases hpv : parseVal g s with
      | none =>
        rw [hpv] at h
        exact absurd h (by simp)
      | some p =>
        rw [hpv] at h
        obtain ⟨v0, r1⟩ := p
        dsimp only [] at h
        cases hskip : skipWs r1 with
        | nil =>
          rw [hskip] at h
          exact absurd h (by simp)
        | cons c r2 =>
          rw [hskip] at h
          dsimp only [] at h
          have hr1ne : r1 ≠ [] := ne_nil_of_skipWs r1 c r2 hskip
          rw [ihV s t v0 r1 hpv (fun he => absurd he hr1ne)]
          dsimp only []
          rw [skipWs_cons_append r1 t c r2 hskip]
          dsimp only []
          by_cases hc : c = ']'
          · rw [if_pos hc] at h ⊢
            simp only [Option.some.injEq, Prod.mk.injEq] at h
            obtain ⟨hv, hr⟩ := h
            subst hv
            subst hr
            rfl
          · rw [if_neg hc] at h ⊢
            by_cases hc2 : c = ','
            · rw [if_pos hc2] at h ⊢
              cases hpi : parseItems g r2 with
              | none =>
                rw [hpi] at h
                exact absurd h (by simp)
              | some p2 =>
                rw [hpi] at h
                obtain ⟨l2, r3⟩ := p2
                simp only [Option.map_some', Option.some.injEq, Prod.mk.injEq] at h
                obtain ⟨hl, hr⟩ := h
                rw [ihI r2 t l2 r3 hpi]
                simp only [Option.map_some', Option.some.injEq, Prod.mk.injEq]
                exact ⟨hl, by rw [hr]⟩
            · rw [if_neg hc2] at h
              exact absurd h (by simp)

/-- Inversion of a successful strict parse. -/
theorem parseJson_inv (s : List Char) (o : Json) (h : parseJson s = some o) :
    ∃ rv, parseVal (2 * s.length + 4) s = some (o, rv) ∧ skipWs rv = [] := by
  unfold parseJson at h
  cases hpv : parseVal (2 * s.length + 4) s with
  | none =>
    rw [hpv] at h
    exact absurd h (by simp)
  | some p =>
    rw [hpv] at h
    obtain ⟨v, rv⟩ := p
    dsimp only [] at h
    by_cases hws : skipWs rv = []
    · rw [if_pos hws] at h
      have hvo : v = o := Option.some.inj h
      subst hvo
      exact ⟨rv, rfl, hws⟩
    · rw [if_neg hws] at h
      exact absurd h (by simp)

/-- The whitespace skip keeps a non-blank head character. -/
theorem skipWs_cons_nonws (c : Char) (l : List Char) (hc : isJsonWs c = false) :
    skipWs (c :: l) = c :: l := by
  unfold skipWs
  rw [List.dropWhile_cons, hc]
  simp

/-- C9 composite: a script block made of two complete JSON objects glued
back to back, where the repair touches nothing but the boundary, fails the
strict parse, and the repaired parse recovers exactly the two objects in an
array, whose recipe nodes are searched in order. -/
theorem two_object_repair_recovers_both
    (s1 s2 : List Char) (o1 o2 : Json)
    (fl1 fl2 : List (String × Json)) (u1 u2 : List Char)
    (ho1 : o1 = Json.obj fl1) (ho2 : o2 = Json.obj fl2)
    (hh1 : s1 = lbrace :: u1) (hh2 : s2 = lbrace :: u2)
    (h1 : parseJson s1 = some o1) (h2 : parseJson s2 = some o2)
    (hrep : replaceBraceAdj (s1 ++ s2) = s1 ++ ',' :: s2)
    (htrim : trimJs (s1 ++ s2) = s1 ++ s2) :
    parseJson (s1 ++ s2) = none ∧
    parseJson (jsRepair (s1 ++ s2)) = some (Json.arr [o1, o2]) ∧
    blockCandidates (s1 ++ s2) = [Json.arr [o1, o2]] ∧
    (blockCandidates (s1 ++ s2)).flatMap findRecipeNodes =
      findRecipeNodes o1 ++ findRecipeNodes o2 := by
  obtain ⟨rv1, hpv1, hws1⟩ := parseJson_inv s1 o1 h1
  obtain ⟨rv2, hpv2, hws2⟩ := parseJson_inv s2 o2 h2
  have hguard1 : rv1 = [] → ∀ q, o1 ≠ Json.num q := by
    intro _ q hq
    rw [ho1] at hq
    exact Json.noConfusion hq
  have hguard2 : rv2 = [] → ∀ q, o2 ≠ Json.num q := by
    intro _ q hq
    rw [ho2] at hq
    exact Json.noConfusion hq
  have hlb : isJsonWs lbrace = false := by decide
  have hstrict : parseJson (s1 ++ s2) = none := by
    unfold parseJson
    have hF : 2 * s1.length + 4 ≤ 2 * (s1 ++ s2).length + 4 := by
      rw [List.length_append]
      omega
    have happ := (parseAppendAux (2 * s1.length + 4) (2 * (s1 ++ s2).length + 4)
      hF).1 s1 s2 o1 rv1 hpv1 hguard1
    rw [happ]
    dsimp only []
    have hsk : skipWs (rv1 ++ s2) = s2 := by
      rw [skipWs_nil_append rv1 s2 hws1, hh2]
      exact skipWs_cons_nonws lbrace u2 hlb
    rw [hsk, hh2]
    rw [if_neg (by simp)]
  have hitems2 : parseItems (2 * s1.length + 2 * s2.length + 7 + 1)
      (s2 ++ [']']) = some ([o2], []) := by
    rw [show (2 * s1.length + 2 * s2.length + 7 + 1) =
      (2 * s1.length + 2 * s2.length + 7) + 1 from rfl]
    unfold parseItems
    have hv2 : parseVal (2 * s1.length + 2 * s2.length + 7) (s2 ++ [']']) =
        some (o2, rv2 ++ [']']) :=
      (parseAppendAux (2 * s2.length + 4) (2 * s1.length + 2 * s2.length + 7)
        (by omega)).1 s2 [']'] o2 rv2 hpv2 hguard2
    rw [hv2]
    dsimp only []
    have hskC : skipWs (rv2 ++ [']']) = [']'] := by
      rw [skipWs_nil_append rv2 _ hws2]
      exact skipWs_cons_nonws ']' [] (by decide)
    rw [hskC]
    dsimp only []
    rw [if_pos rfl]
  have hitems : parseItems (2 * s1.length + 2 * s2.length + 8 + 1)
      ((s1 ++ ',' :: s2) ++ [']']) = some ([o1, o2], []) := by
    rw [show (2 * s1.length + 2 * s2.length + 8 + 1) =
      (2 * s1.length + 2 * s2.length + 8) + 1 from rfl]
    unfold parseItems
    rw [List.append_assoc, List.cons_append]
    have hv1 : parseVal (2 * s1.length + 2 * s2.length + 8)
        (s1 ++ (',' :: (s2 ++ [']']))) =
        some (o1, rv1 ++ (',' :: (s2 ++ [']']))) :=
      (parseAppendAux (2 * s1.length + 4) (2 * s1.length + 2 * s2.length + 8)
        (by omega)).1 s1 (',' :: (s2 ++ [']'])) o1 rv1 hpv1 hguard1
    rw [hv1]
    dsimp only []
    have hskB : skipWs (rv1 ++ (',' :: (s2 ++ [']']))) = ',' :: (s2 ++ [']']) := by
      rw [skipWs_nil_append rv1 _ hws1]
      exact skipWs_cons_nonws ',' _ (by decide)
    rw [hskB]
    dsimp only []
    rw [if_neg (by decide : ¬(',' : Char) = ']')]
    rw [if_pos rfl]
    have hmono := (parseAppendAux (2 * s1.length + 2 * s2.length + 7 + 1)
      (2 * s1.length + 2 * s2.length + 8) (by omega)).2.2 (s2 ++ [']']) [] [o2] []
      hitems2
    rw [List.append_nil, List.append_nil] at hmono
    rw [hmono]
    simp only [Option.map_some']
  have hrepaired : parseJson (jsRepair (s1 ++ s2)) = some (Json.arr [o1, o2]) := by
    unfold jsRepair
    rw [hrep]
    unfold parseJson
    have hexp : 2 * (('[' :: (s1 ++ ',' :: s2) ++ [']']).length) + 4 =
        (2 * s1.length + 2 * s2.length + 9) + 1 := by
      simp only [List.cons_append, List.length_cons, List.length_append,
        List.length_nil]
      omega
    rw [hexp]
    unfold parseVal
    have hsk0 : skipWs (('[' :: (s1 ++ ',' :: s2)) ++ [']']) =
        '[' :: ((s1 ++ ',' :: s2) ++ [']']) := by
      rw [List.cons_append]
      exact skipWs_cons_nonws '[' _ (by decide)
    rw [hsk0]
    dsimp only []
    rw [if_neg (by decide : ¬('[' : Char) = lbrace)]
    rw [if_pos rfl]
    have hskA : skipWs ((s1 ++ ',' :: s2) ++ [']']) =
        lbrace :: ((u1 ++ ',' :: s2) ++ [']']) := by
      rw [hh1, List.cons_append, List.cons_append]
      exact skipWs_cons_nonws lbrace _ hlb
    rw [hskA]
    dsimp only []
    rw [if_neg (by decide : ¬lbrace = ']')]
    rw [hitems]
    simp only [Option.map_some']
    rw [if_pos (show skipWs ([] : List Char) = [] from rfl)]
  have hbc : blockCandidates (s1 ++ s2) = [Json.arr [o1, o2]] := by
    unfold blockCandidates
    dsimp only []
    rw [htrim]
    rw [if_neg (by rw [hh1]; simp)]
    rw [hstrict]
    dsimp only []
    rw [hrepaired]
  refine ⟨hstrict, hrepaired, hbc, ?_⟩
  rw [hbc]
  have hfm : ([Json.arr [o1, o2]] : List Json).flatMap findRecipeNodes =
      findRecipeNodes (Json.arr [o1, o2]) := by simp
  rw [hfm]
  rw [show findRecipeNodes (Json.arr [o1, o2]) =
    findRecipeNodes o1 ++ (findRecipeNodes o2 ++ []) from rfl]
  simp

/-- C9 counterexample: two complete recipe objects glued back to back, where
the first object holds the two-character text \x7d\x7b inside a string value.
Each object alone is valid JSON, but the repair pass rewrites brace
adjacencies blindly, also inside the string literal, so the first recovered
object carries a corrupted name: the claim that both objects are recovered
fails. -/
theorem repair_corrupts_string_counterexample :
    parseJson ("\x7b\"@type\":\"Recipe\",\"name\":\"\x7d\x7b\"\x7d").data =
      some (Json.obj [("@type", Json.str "Recipe"), ("name", Json.str "\x7d\x7b")]) ∧
    parseJson ("\x7b\"@type\":\"Recipe\",\"name\":\"B\"\x7d").data =
      some (Json.obj [("@type", Json.str "Recipe"), ("name", Json.str "B")]) ∧
    ((blockCandidates (("\x7b\"@type\":\"Recipe\",\"name\":\"\x7d\x7b\"\x7d").data ++
        ("\x7b\"@type\":\"Recipe\",\"name\":\"B\"\x7d").data)).flatMap
          findRecipeNodes).map titleOf ≠
      (findRecipeNodes (Json.obj [("@type", Json.str "Recipe"),
          ("name", Json.str "\x7d\x7b")]) ++
        findRecipeNodes (Json.obj [("@type", Json.str "Recipe"),
          ("name", Json.str "B")])).map titleOf := by
  refine ⟨rfl, rfl, ?_⟩
  decide

/-- C9 witness: the amended statement at two concrete recipe objects. -/
theorem two_object_repair_recovers_both_witness :
    parseJson (("\x7b\"@type\":\"Recipe\",\"name\":\"A\"\x7d").data ++
        ("\x7b\"@type\":\"Recipe\",\"name\":\"B\"\x7d").data) = none ∧
    parseJson (jsRepair (("\x7b\"@type\":\"Recipe\",\"name\":\"A\"\x7d").data ++
        ("\x7b\"@type\":\"Recipe\",\"name\":\"B\"\x7d").data)) =
      some (Json.arr [Json.obj [("@type", Json.str "Recipe"), ("name", Json.str "A")],
        Json.obj [("@type", Json.str "Recipe"), ("name", Json.str "B")]]) ∧
    blockCandidates (("\x7b\"@type\":\"Recipe\",\"name\":\"A\"\x7d").data ++
        ("\x7b\"@type\":\"Recipe\",\"name\":\"B\"\x7d").data) =
      [Json.arr [Json.obj [("@type", Json.str "Recipe"), ("name", Json.str "A")],
        Json.obj [("@type", Json.str "Recipe"), ("name", Json.str "B")]]] ∧
    (blockCandidates (("\x7b\"@type\":\"Recipe\",\"name\":\"A\"\x7d").data ++
        ("\x7b\"@type\":\"Recipe\",\"name\":\"B\"\x7d").data)).flatMap
          findRecipeNodes =
      findRecipeNodes (Json.obj [("@type", Json.str "Recipe"),
        ("name", Json.str "A")]) ++
      findRecipeNodes (Json.obj [("@type", Json.str "Recipe"),
        ("name", Json.str "B")]) :=
  two_object_repair_recovers_both
    ("\x7b\"@type\":\"Recipe\",\"name\":\"A\"\x7d").data
    ("\x7b\"@type\":\"Recipe\",\"name\":\"B\"\x7d").data
    (Json.obj [("@type", Json.str "Recipe"), ("name", Json.str "A")])
    (Json.obj [("@type", Json.str "Recipe"), ("name", Json.str "B")])
    [("@type", Json.str "Recipe"), ("name", Json.str "A")]
    [("@type", Json.str "Recipe"), ("name", Json.str "B")]
    ("\"@type\":\"Recipe\",\"name\":\"A\"\x7d").data
    ("\"@type\":\"Recipe\",\"name\":\"B\"\x7d").data
    rfl rfl rfl rfl rfl rfl (by decide) (by decide)

end FoodRun
